import Mathlib

/-!
# Verification of the TreeCat core (`pyro/contrib/tabular/treecat.py`)

Shallow embedding conventions.  A real-valued tensor of shape `(A, B)` is
embedded as a function `ℕ → ℕ → ℚ` that the code only ever reads at indices
below `A` and `B`; mutation of the `_EdgeGuide` statistics becomes a pure
state-to-state function on a `structure`.  Python `assert` statements are
embedded as separate decidable precondition predicates (`updateOk`,
`treeCatInitOk`, `modelArgsOk`): a call that the code accepts is one whose
predicate holds, and the effect of the accepted call is the pure function.
The `lgamma` kernel of `_dirmul_log_prob` is kept abstract as a parameter
`lg : ℚ → ℚ`, since the claims about it are identities between two symbolic
arrangements of the same `lgamma` values.
-/

/-- Index of the unordered pair `(v1, v2)`, `v1 < v2`, in the complete graph on
`V` vertices, exactly as the source computes it in `get_posterior`
(line 368): `k = v1 + v2 * (v2 - 1) // 2`. -/
def pairIndex (v1 v2 : ℕ) : ℕ := v1 + v2 * (v2 - 1) / 2

/-- Modelled from the spec: the pair list of `make_complete_graph`.  The
function `make_complete_graph` is imported by `treecat.py` from
`pyro.distributions.spanning_tree`, which is not among the sources under
verification; the spec fixes the complete-graph pair order by the index
formula `k = v1 + v2*(v2-1)/2` with `v1 < v2` and `K = V*(V-1)/2` pairs, which
is the order produced here. -/
def completePairs : ℕ → List (ℕ × ℕ)
  | 0 => []
  | v2 + 1 => completePairs v2 ++ (List.range v2).map (fun v1 => (v1, v2))

/-- Modelled from the spec: first row of the `make_complete_graph` grid
(the smaller endpoint of pair `k`). -/
def gridFst (V k : ℕ) : ℕ := ((completePairs V).getD k (0, 0)).1

/-- Modelled from the spec: second row of the `make_complete_graph` grid
(the larger endpoint of pair `k`). -/
def gridSnd (V k : ℕ) : ℕ := ((completePairs V).getD k (0, 0)).2

/-- State of `_EdgeGuide` (treecat.py lines 271-303): `capacity` is `M`, the
edge list is the current tree, and the three statistics fields are
`self._count_stats`, `self._vertex_stats` (shape `(V, M)`) and
`self._complete_stats` (shape `(K, M*M)`). -/
structure EdgeGuide where
  capacity : ℕ
  edges : List (ℕ × ℕ)
  annealing_rate : ℚ
  count_stats : ℚ
  vertex_stats : ℕ → ℕ → ℚ
  complete_stats : ℕ → ℕ → ℚ

/-- Number of vertices: `V = E + 1` with `E = len(edges)` (line 288). -/
def EdgeGuide.V (g : EdgeGuide) : ℕ := g.edges.length + 1

/-- Number of complete-graph pairs: `K = V * (V - 1) // 2` (line 289). -/
def EdgeGuide.K (g : EdgeGuide) : ℕ := g.V * (g.V - 1) / 2

/-- `_EdgeGuide.__init__` statistics initialization (lines 300-303): one
pseudo-observation, `count_stats = 1`, every `vertex_stats` cell `1/M`,
every `complete_stats` cell `1/M**2`. -/
def EdgeGuide.init (capacity : ℕ) (edges : List (ℕ × ℕ)) (annealing_rate : ℚ) :
    EdgeGuide where
  capacity := capacity
  edges := edges
  annealing_rate := annealing_rate
  count_stats := 1
  vertex_stats := fun _ _ => 1 / (capacity : ℚ)
  complete_stats := fun _ _ => 1 / ((capacity : ℚ) ^ 2)

/-- Number of minibatch rows `r < batch` with `z[v, r] = m`: the per-cell
increment of `vertex_stats.scatter_add_(-1, z, 1)` (line 333). -/
def countZ (z : ℕ → ℕ → ℕ) (batch v m : ℕ) : ℕ :=
  ((Finset.range batch).filter (fun r => z v r = m)).card

/-- Number of minibatch rows `r < batch` with `M * z[v1, r] + z[v2, r] = c`:
the per-cell increment of `complete_stats.scatter_add_(-1, zz, 1)` where
`zz = (M * z)[grid[0]] + z[grid[1]]` (lines 335-336). -/
def countZZ (M : ℕ) (z : ℕ → ℕ → ℕ) (batch v1 v2 c : ℕ) : ℕ :=
  ((Finset.range batch).filter (fun r => M * z v1 r + z v2 r = c)).card

/-- Decay factor of `_EdgeGuide.update` (lines 325-327):
`min((1 + annealing_rate) / (1 + batch_size / count_stats),
     1 / (1 + batch_size / num_rows))`. -/
def decayFactor (ar cs : ℚ) (batch nr : ℕ) : ℚ :=
  min ((1 + ar) / (1 + (batch : ℚ) / cs)) (1 / (1 + (batch : ℚ) / (nr : ℚ)))

/-- The state mutation of `_EdgeGuide.update` (lines 317-337): default
`num_rows` to `batch_size` when absent, then accumulate the minibatch counts
into all three statistics and multiply each by the decay factor. -/
def EdgeGuide.update (g : EdgeGuide) (num_rows : Option ℕ) (z : ℕ → ℕ → ℕ)
    (batch : ℕ) : EdgeGuide :=
  let nr := num_rows.getD batch
  let decay := decayFactor g.annealing_rate g.count_stats batch nr
  { g with
    count_stats := (g.count_stats + (batch : ℚ)) * decay
    vertex_stats := fun v m => (g.vertex_stats v m + (countZ z batch v m : ℚ)) * decay
    complete_stats := fun k c =>
      (g.complete_stats k c
        + (countZZ g.capacity z batch (gridFst g.V k) (gridSnd g.V k) c : ℚ)) * decay }

/-- The assertions guarding `_EdgeGuide.update` (lines 323-324):
`batch_size <= num_rows` (after the default) and `count_stats > 0`.  They run
before any statistics field is written. -/
def EdgeGuide.updateOk (g : EdgeGuide) (num_rows : Option ℕ) (batch : ℕ) : Prop :=
  batch ≤ num_rows.getD batch ∧ 0 < g.count_stats

/-- Complete-graph row index used by `get_posterior` for tree edge `e`
(lines 367-368): `k = v1 + v2 * (v2 - 1) // 2` on the stored endpoints. -/
def EdgeGuide.edgeK (g : EdgeGuide) (e : ℕ) : ℕ :=
  pairIndex (g.edges.getD e (0, 0)).1 (g.edges.getD e (0, 0)).2

/-- Vertex posterior mean of `get_posterior` (lines 371-372): prior `0.5` per
cell added to `vertex_stats`, normalized over the last axis. -/
def EdgeGuide.vertexProbs (g : EdgeGuide) (v m : ℕ) : ℚ :=
  (1 / 2 + g.vertex_stats v m) /
    ∑ m' ∈ Finset.range g.capacity, (1 / 2 + g.vertex_stats v m')

/-- Edge posterior mean of `get_posterior` (lines 373-374): prior `0.5 / M`
per cell added to the `complete_stats` row of the tree edge, normalized over
the last axis. -/
def EdgeGuide.edgeProbs (g : EdgeGuide) (e c : ℕ) : ℚ :=
  (1 / 2 / (g.capacity : ℚ) + g.complete_stats (g.edgeK e) c) /
    ∑ c' ∈ Finset.range (g.capacity * g.capacity),
      (1 / 2 / (g.capacity : ℚ) + g.complete_stats (g.edgeK e) c')

/-- The optimized `_dirmul_log_prob` (lines 399-410), parametric in the
`lgamma` kernel `lg`: pair each count with `(c + alpha, c + 1)`, apply `lg`,
contract with the vector `[1, -1]`, and sum over the last axis. -/
def dirmulRow (lg : ℚ → ℚ) (alpha : ℚ) (counts : List ℚ) : ℚ :=
  (counts.map (fun c => lg (c + alpha) * 1 + lg (c + 1) * (-1))).sum

/-- Reference formula from the docstring of `_dirmul_log_prob` (line 404):
`(alpha + counts).lgamma().sum(-1) - (1 + counts).lgamma().sum(-1)`. -/
def dirmulRef (lg : ℚ → ℚ) (alpha : ℚ) (counts : List ℚ) : ℚ :=
  (counts.map (fun c => lg (alpha + c))).sum - (counts.map (fun c => lg (1 + c))).sum

/-- Row `v` of `vertex_stats` as the length-`M` count list. -/
def EdgeGuide.vertexRow (g : EdgeGuide) (v : ℕ) : List ℚ :=
  (List.range g.capacity).map (g.vertex_stats v)

/-- Row `k` of `complete_stats` as the length-`M*M` count list. -/
def EdgeGuide.completeRow (g : EdgeGuide) (k : ℕ) : List ℚ :=
  (List.range (g.capacity * g.capacity)).map (g.complete_stats k)

/-- `compute_edge_logits` (lines 377-396), parametric in the `lgamma` kernel:
for each complete-graph pair `k`, the Dirichlet-multinomial score of the
pairwise counts (prior `0.5 / M`) minus the scores of the two endpoint vertex
count rows (prior `0.5`), the endpoints being read off the
`make_complete_graph` grid. -/
def EdgeGuide.edgeLogits (g : EdgeGuide) (lg : ℚ → ℚ) : List ℚ :=
  (List.range g.K).map (fun k =>
    dirmulRow lg (1 / 2 / (g.capacity : ℚ)) (g.completeRow k)
      - dirmulRow lg (1 / 2) (g.vertexRow (gridFst g.V k))
      - dirmulRow lg (1 / 2) (g.vertexRow (gridSnd g.V k)))

/-- Row-sum invariant of the statistics tables: every `vertex_stats` row and
every `complete_stats` row sums (over the last axis) to `count_stats`. -/
def EdgeGuide.RowSums (g : EdgeGuide) : Prop :=
  (∀ v, ∑ m ∈ Finset.range g.capacity, g.vertex_stats v m = g.count_stats) ∧
  (∀ k, ∑ c ∈ Finset.range (g.capacity * g.capacity), g.complete_stats k c = g.count_stats)

/-- Arguments of one `_EdgeGuide.update` call: the optional dataset size, the
latent matrix, and its number of columns (the batch size `z.size(-1)`). -/
structure UpdateCall where
  num_rows : Option ℕ
  z : ℕ → ℕ → ℕ
  batch : ℕ

/-- Effective `num_rows` of a call after the `None` default (lines 317-318). -/
def UpdateCall.nr (c : UpdateCall) : ℕ := c.num_rows.getD c.batch

/-- Fold a sequence of `update` calls over a guide state. -/
def EdgeGuide.updateSeq (g : EdgeGuide) (calls : List UpdateCall) : EdgeGuide :=
  calls.foldl (fun g c => g.update c.num_rows c.z c.batch) g

/-- The assertions of `TreeCat.__init__` (lines 43-45) on an explicitly given
edge tensor: `capacity > 1` and shape `(V - 1, 2)`; with edges embedded as a
list of pairs the shape condition is the length `V - 1` (`V = len(features)`,
the second dimension being built into the pair type). -/
def treeCatInitOk (nfeatures capacity : ℕ) (edges : List (ℕ × ℕ)) : Prop :=
  1 < capacity ∧ edges.length = nfeatures - 1

/-- The assertions of `TreeCat.model` (lines 101-102) on the data list, with
each column abstracted to its presence flag (`true` iff the column is not
`None`): the list has one entry per feature and not every column is missing. -/
def modelArgsOk (nfeatures : ℕ) (data : List Bool) : Prop :=
  data.length = nfeatures ∧ data.any id = true

/-- The `joint.reshape(joint.shape[:-1] + (M, M))` step of `_propagate`
(line 162) on a flat row of length `M * M`. -/
def reshapeSquare (M : ℕ) (row : ℕ → ℚ) : ℕ → ℕ → ℚ :=
  fun i j => row (i * M + j)

/-- The `joint.transpose(-1, -2)` step of `_propagate` (line 164). -/
def transposeSquare (t : ℕ → ℕ → ℚ) : ℕ → ℕ → ℚ :=
  fun i j => t j i

/-- Neighbors of `v` whose latent state is already assigned; `_propagate`
(lines 146-152) takes the parent `v0` from this set and treats the rest of
the neighbors as children. -/
def assignedNbrs (nbrs : ℕ → Finset ℕ) (z : ℕ → Option ℕ) (v : ℕ) : Finset ℕ :=
  (nbrs v).filter (fun u => (z u).isSome)

/-- The conditional distribution built by one `_propagate` step at vertex `v`
(lines 154-165): with no assigned neighbor, row `v` of the vertex table;
otherwise look up the flat edge row at the edge index of `(v, v0)`, reshape it
to `M × M`, transpose when `v0 > v`, and select the row given by the parent
state `z[v0]`. -/
def propagateProbs (M : ℕ) (edgeIdx : ℕ → ℕ → ℕ) (vertex_probs : ℕ → ℕ → ℚ)
    (edge_probs : ℕ → ℕ → ℚ) (nbrs : ℕ → Finset ℕ) (z : ℕ → Option ℕ)
    (v : ℕ) : ℕ → ℚ :=
  if h : (assignedNbrs nbrs z v).Nonempty then
    let v0 := (assignedNbrs nbrs z v).max' h
    let joint := reshapeSquare M (edge_probs (edgeIdx v v0))
    let joint := if v0 > v then transposeSquare joint else joint
    fun m => joint ((z v0).getD 0) m
  else
    vertex_probs v

/-- One adjacency insertion of `find_center_of_tree` (lines 425-427):
`neighbors[v1].add(v2); neighbors[v2].add(v1)`. -/
def addEdge (nbrs : ℕ → Finset ℕ) (e : ℕ × ℕ) : ℕ → Finset ℕ := fun v =>
  ((if v = e.1 then {e.2} else ∅) ∪ (if v = e.2 then {e.1} else ∅)) ∪ nbrs v

/-- Symmetric adjacency sets built from the edge list (lines 424-427); the
same construction appears in `print_tree` (lines 454-457). -/
def buildNeighbors (edges : List (ℕ × ℕ)) : ℕ → Finset ℕ :=
  edges.foldl addEdge (fun _ => ∅)

/-- Ascending enumeration of a finite set of naturals by repeated extraction
of the minimum, fuel-bounded so that it evaluates by kernel reduction; with
fuel at least the cardinality it agrees with `Finset.sort` (proved below). -/
def finsetAscAux : ℕ → Finset ℕ → List ℕ
  | 0, _ => []
  | fuel + 1, s =>
      if h : s.Nonempty then s.min' h :: finsetAscAux fuel (s.erase (s.min' h))
      else []

/-- The elements of a finite set of naturals in increasing order: the
embedding of Python `sorted(...)` on a set of vertex ids. -/
def finsetAsc (s : Finset ℕ) : List ℕ := finsetAscAux s.card s

/-- One popped vertex of the `find_center_of_tree` loop (lines 430-434): for
each `v2` in `sorted(neighbors[v])` remove `v` from `neighbors[v2]`, appending
`v2` to the queue when its degree drops to exactly 1. -/
def stripVisit (nbrs : ℕ → Finset ℕ) (queue : List ℕ) (v : ℕ) :
    (ℕ → Finset ℕ) × List ℕ :=
  (finsetAsc (nbrs v)).foldl
    (fun st v2 =>
      let nbrs' := Function.update st.1 v2 ((st.1 v2).erase v)
      (nbrs', if (nbrs' v2).card = 1 then st.2 ++ [v2] else st.2))
    (nbrs, queue)

/-- The pop sequence of the `while queue` loop of `find_center_of_tree`
(lines 429-434).  The loop is fuel-bounded here; the fuel passed below
suffices for every input the claims quantify over, since on a tree each
vertex is popped at most once. -/
def stripPops : (ℕ → Finset ℕ) → List ℕ → ℕ → List ℕ
  | _, _, 0 => []
  | _, [], _ + 1 => []
  | nbrs, v :: rest, fuel + 1 =>
      v :: stripPops (stripVisit nbrs rest v).1 (stripVisit nbrs rest v).2 fuel

/-- `find_center_of_tree` (lines 413-435): build the adjacency sets, queue the
vertices of degree at most 1 in increasing id order, strip leaves, and return
the last vertex processed. -/
def findCenterOfTree (edges : List (ℕ × ℕ)) : ℕ :=
  let V := edges.length + 1
  let nbrs := buildNeighbors edges
  let queue := (List.range V).filter (fun v => (nbrs v).card ≤ 1)
  ((stripPops nbrs queue (4 * V + 4)).getLast?).getD 0

/-- Rooted-forest certificate for an edge list on vertices `0..V-1`: a root,
a parent map and a depth map such that every non-root vertex has an in-range
parent one depth level up, and every edge joins a non-root vertex to its
parent.  Any tree on `0..V-1` rooted at an arbitrary vertex `r`, with its
parent and depth maps, satisfies this. -/
def IsParentForest (V : ℕ) (edges : List (ℕ × ℕ)) (r : ℕ)
    (parent depth : ℕ → ℕ) : Prop :=
  (∀ v, v < V → v ≠ r → parent v < V ∧ depth v = depth (parent v) + 1) ∧
  (∀ p ∈ edges, (p.2 < V ∧ p.2 ≠ r ∧ parent p.2 = p.1)
      ∨ (p.1 < V ∧ p.1 ≠ r ∧ parent p.1 = p.2))

/-- Edge list of the path graph `0 - 1 - ... - (V-1)`. -/
def pathEdges (V : ℕ) : List (ℕ × ℕ) :=
  (List.range (V - 1)).map (fun i => (i, i + 1))

/-- The child selection of the `print_tree` stack loop (lines 463-468):
scanning `sorted(neighbors[stack[-1]], reverse=True)` and breaking at the
first vertex not in `seen` picks the largest unseen neighbor of the top, or
nothing when every neighbor was seen. -/
def ptPick (nbrs : ℕ → Finset ℕ) (seen : Finset ℕ) (v : ℕ) : Option ℕ :=
  if h : ((nbrs v) \ seen).Nonempty then some (((nbrs v) \ seen).max' h) else none

/-- The stack loop of `print_tree` (lines 461-471): either push the largest
unseen neighbor of the top and mark it seen, or pop the top and append
`(len(stack), vertex)` to the lines.  Fuel-bounded; the fuel used in
`printTree` suffices for the inputs the claims quantify over. -/
def ptLoop (nbrs : ℕ → Finset ℕ) : ℕ → List ℕ → Finset ℕ → List (ℕ × ℕ) → List (ℕ × ℕ)
  | 0, _, _, lines => lines
  | _ + 1, [], _, lines => lines
  | fuel + 1, v :: rest, seen, lines =>
      (ptPick nbrs seen v).elim
        (ptLoop nbrs fuel rest seen (lines ++ [(rest.length, v)]))
        (fun u => ptLoop nbrs fuel (u :: v :: rest) (insert u seen) lines)

/-- Rendering of `print_tree` (line 473): each line is two spaces per depth
level followed by the feature name, and lines are joined by newlines. -/
def renderLines (names : List String) (lines : List (ℕ × ℕ)) : String :=
  String.intercalate "\n"
    (lines.map (fun d => String.join (List.replicate d.1 "  ") ++ names.getD d.2 ""))

/-- `print_tree` (lines 438-473), with feature names kept as vertex indices
until rendering: the root defaults to the name of the computed center, the
stack holds the current path starting from the index of the root name, lines
are recorded in postorder and reversed before rendering. -/
def printTree (edges : List (ℕ × ℕ)) (names : List String)
    (root : Option String) : String :=
  let rootName := root.getD (names.getD (findCenterOfTree edges) "")
  let ridx := names.indexOf rootName
  let nbrs := buildNeighbors edges
  let lines := ptLoop nbrs (2 * names.length + 2) [ridx] {ridx} []
  renderLines names lines.reverse

/-- Children of `v` in a rooted certificate: the non-root vertices whose
parent is `v`. -/
def childrenOf (V r : ℕ) (parent : ℕ → ℕ) (v : ℕ) : Finset ℕ :=
  (Finset.range V).filter (fun u => u ≠ r ∧ parent u = v)

/-- Reference depth-indented preorder DFS listing of the rooted tree, with
the children of every vertex taken in ascending vertex-id order. -/
def preListing (V r : ℕ) (parent : ℕ → ℕ) : ℕ → ℕ → ℕ → List (ℕ × ℕ)
  | 0, _, _ => []
  | fuel + 1, v, dep =>
      (dep, v) :: (finsetAsc (childrenOf V r parent v)).flatMap
        (fun c => preListing V r parent fuel c (dep + 1))

/-- Descendants of `v` in a rooted certificate: the vertices whose parent
chain reaches `v` after `depth u - depth v` steps. -/
def subtreeF (V : ℕ) (parent depth : ℕ → ℕ) (v : ℕ) : Finset ℕ :=
  (Finset.range V).filter
    (fun u => depth v ≤ depth u ∧ parent^[depth u - depth v] u = v)

/-- Full rooted-tree certificate: a rooted forest whose root is in range at
depth `0`, and in which every parent-child pair occurs in the edge list, so
the edge list presents exactly the tree edges. -/
def IsParentTree (V : ℕ) (edges : List (ℕ × ℕ)) (r : ℕ)
    (parent depth : ℕ → ℕ) : Prop :=
  IsParentForest V edges r parent depth ∧ r < V ∧ depth r = 0 ∧
  (∀ b, b < V → b ≠ r → ((parent b, b) ∈ edges ∨ (b, parent b) ∈ edges))

/-! ## Theorems -/

lemma completePairs_length (V : ℕ) : (completePairs V).length = V.choose 2 := by
  induction V with
  | zero => simp [completePairs]
  | succ n ih =>
      simp [completePairs, ih, Nat.choose_succ_succ, Nat.choose_one_right, Nat.add_comm]

lemma pairIndex_eq_choose (v1 v2 : ℕ) : pairIndex v1 v2 = v2.choose 2 + v1 := by
  simp [pairIndex, Nat.choose_two_right, Nat.add_comm]

lemma completePairs_getElem? {v1 v2 : ℕ} (h12 : v1 < v2) :
    ∀ V, v2 < V → (completePairs V)[pairIndex v1 v2]? = some (v1, v2) := by
  intro V
  induction V with
  | zero => omega
  | succ n ih =>
      intro hV
      rcases Nat.lt_succ_iff_lt_or_eq.mp hV with h | h
      · have hlt : pairIndex v1 v2 < (completePairs n).length := by
          rw [completePairs_length, pairIndex_eq_choose]
          have h1 : v2.choose 2 + v1 < v2.choose 2 + v2 := by omega
          have h2 : v2.choose 2 + v2 = (v2 + 1).choose 2 := by
            simp [Nat.choose_succ_succ, Nat.choose_one_right, Nat.add_comm]
          have h3 : (v2 + 1).choose 2 ≤ n.choose 2 := Nat.choose_le_choose 2 h
          omega
        rw [completePairs, List.getElem?_append, if_pos hlt]
        exact ih h
      · subst h
        have hlen : (completePairs v2).length = v2.choose 2 := completePairs_length v2
        have hge : (completePairs v2).length ≤ pairIndex v1 v2 := by
          rw [hlen, pairIndex_eq_choose]; omega
        rw [completePairs, List.getElem?_append_right hge]
        have hidx : pairIndex v1 v2 - (completePairs v2).length = v1 := by
          rw [hlen, pairIndex_eq_choose]; omega
        rw [hidx, List.getElem?_map, List.getElem?_range h12]
        rfl

lemma gridFst_pairIndex {v1 v2 V : ℕ} (h12 : v1 < v2) (hV : v2 < V) :
    gridFst V (pairIndex v1 v2) = v1 := by
  simp [gridFst, List.getD, completePairs_getElem? h12 V hV]

lemma gridSnd_pairIndex {v1 v2 V : ℕ} (h12 : v1 < v2) (hV : v2 < V) :
    gridSnd V (pairIndex v1 v2) = v2 := by
  simp [gridSnd, List.getD, completePairs_getElem? h12 V hV]

lemma pairIndex_lt {v1 v2 V : ℕ} (h12 : v1 < v2) (hV : v2 < V) :
    pairIndex v1 v2 < V * (V - 1) / 2 := by
  have h := completePairs_getElem? h12 V hV
  have hlt : pairIndex v1 v2 < (completePairs V).length := by
    by_contra hge
    rw [List.getElem?_eq_none (by omega)] at h
    exact Option.noConfusion h
  rwa [completePairs_length, Nat.choose_two_right] at hlt

/-- C1: one `update` call with a `(V, batch_size)` latent matrix `z` turns
`count_stats` into `(count_stats + batch_size) * decay`, turns every
`vertex_stats` cell `(v, m)` into `(old + number of rows with z[v,row] = m) *
decay`, adds to the complete-graph row of every unordered pair `(v1, v2)` one
unit per row at flat index `z[v1,row]*M + z[v2,row]` before the decay
multiplication, and changes no other state. -/
theorem update_effect (g : EdgeGuide) (num_rows : Option ℕ) (z : ℕ → ℕ → ℕ)
    (batch : ℕ) (hok : g.updateOk num_rows batch) :
    ((g.update num_rows z batch).count_stats
        = (g.count_stats + (batch : ℚ))
            * decayFactor g.annealing_rate g.count_stats batch (num_rows.getD batch))
    ∧ (∀ v m, (g.update num_rows z batch).vertex_stats v m
        = (g.vertex_stats v m + (countZ z batch v m : ℚ))
            * decayFactor g.annealing_rate g.count_stats batch (num_rows.getD batch))
    ∧ (∀ v1 v2, v1 < v2 → v2 < g.V → ∀ c,
        (g.update num_rows z batch).complete_stats (pairIndex v1 v2) c
          = (g.complete_stats (pairIndex v1 v2) c
              + (countZZ g.capacity z batch v1 v2 c : ℚ))
              * decayFactor g.annealing_rate g.count_stats batch (num_rows.getD batch))
    ∧ (g.update num_rows z batch).capacity = g.capacity
    ∧ (g.update num_rows z batch).edges = g.edges
    ∧ (g.update num_rows z batch).annealing_rate = g.annealing_rate := by
  refine ⟨rfl, fun v m => rfl, ?_, rfl, rfl, rfl⟩
  intro v1 v2 h12 hV c
  show (g.complete_stats (pairIndex v1 v2) c
      + (countZZ g.capacity z batch (gridFst g.V (pairIndex v1 v2))
          (gridSnd g.V (pairIndex v1 v2)) c : ℚ)) * _ = _
  rw [gridFst_pairIndex h12 hV, gridSnd_pairIndex h12 hV]

/-- C1 witness: the theorem applied to a concrete accepted call. -/
theorem update_effect_witness :
    (EdgeGuide.init 2 [(0, 1)] 1).updateOk (some 2) 1 ∧
    ((EdgeGuide.init 2 [(0, 1)] 1).update (some 2) (fun _ _ => 0) 1).count_stats
      = ((EdgeGuide.init 2 [(0, 1)] 1).count_stats + ((1 : ℕ) : ℚ))
          * decayFactor (EdgeGuide.init 2 [(0, 1)] 1).annealing_rate
              (EdgeGuide.init 2 [(0, 1)] 1).count_stats 1 ((some 2).getD 1) := by
  have hok : (EdgeGuide.init 2 [(0, 1)] 1).updateOk (some 2) 1 := by
    exact ⟨by norm_num, by norm_num [EdgeGuide.init]⟩
  exact ⟨hok, (update_effect (EdgeGuide.init 2 [(0, 1)] 1) (some 2) (fun _ _ => 0) 1 hok).1⟩

/-- C2: for an accepted `update` call (`batch_size <= num_rows`,
`count_stats > 0`) the decay factor multiplying the accumulated statistics is
exactly `min((1 + annealing_rate) / (1 + batch_size / count_stats),
1 / (1 + batch_size / num_rows))`, and when `num_rows` is not supplied it
defaults to the batch size. -/
theorem update_decay_formula (g : EdgeGuide) (z : ℕ → ℕ → ℕ) (batch : ℕ)
    (num_rows : Option ℕ) (hb : batch ≤ num_rows.getD batch)
    (hc : 0 < g.count_stats) :
    ((g.update num_rows z batch).count_stats
        = (g.count_stats + (batch : ℚ)) *
            min ((1 + g.annealing_rate) / (1 + (batch : ℚ) / g.count_stats))
                (1 / (1 + (batch : ℚ) / ((num_rows.getD batch : ℕ) : ℚ))))
    ∧ g.update none z batch = g.update (some batch) z batch :=
  ⟨rfl, rfl⟩

/-- C2 witness: the theorem applied to a concrete call; the right-hand side
evaluates to the concrete decay value. -/
theorem update_decay_formula_witness :
    (1 ≤ (some 2).getD 1 ∧ (0 : ℚ) < (EdgeGuide.init 2 [(0, 1)] 1).count_stats) ∧
    ((EdgeGuide.init 2 [(0, 1)] 1).update (some 2) (fun _ _ => 1) 1).count_stats
      = ((EdgeGuide.init 2 [(0, 1)] 1).count_stats + ((1 : ℕ) : ℚ)) *
          min ((1 + (EdgeGuide.init 2 [(0, 1)] 1).annealing_rate)
                / (1 + ((1 : ℕ) : ℚ) / (EdgeGuide.init 2 [(0, 1)] 1).count_stats))
              (1 / (1 + ((1 : ℕ) : ℚ) / (((some 2).getD 1 : ℕ) : ℚ))) := by
  have h1 : 1 ≤ (some 2).getD 1 := by norm_num
  have h2 : (0 : ℚ) < (EdgeGuide.init 2 [(0, 1)] 1).count_stats := by
    norm_num [EdgeGuide.init]
  exact ⟨⟨h1, h2⟩,
    (update_decay_formula (EdgeGuide.init 2 [(0, 1)] 1) (fun _ _ => 1) 1 (some 2) h1 h2).1⟩

lemma sum_countZ {z : ℕ → ℕ → ℕ} {batch v M : ℕ}
    (hz : ∀ r, r < batch → z v r < M) :
    ∑ m ∈ Finset.range M, countZ z batch v m = batch := by
  classical
  have hmem : ∀ r ∈ Finset.range batch, z v r ∈ Finset.range M :=
    fun r hr => Finset.mem_range.mpr (hz r (Finset.mem_range.mp hr))
  have h := Finset.card_eq_sum_card_fiberwise hmem
  simpa [countZ] using h.symm

lemma sum_countZZ {M : ℕ} {z : ℕ → ℕ → ℕ} {batch v1 v2 : ℕ}
    (h1 : ∀ r, r < batch → z v1 r < M) (h2 : ∀ r, r < batch → z v2 r < M) :
    ∑ c ∈ Finset.range (M * M), countZZ M z batch v1 v2 c = batch := by
  classical
  have hmem : ∀ r ∈ Finset.range batch, M * z v1 r + z v2 r ∈ Finset.range (M * M) := by
    intro r hr
    have hr' := Finset.mem_range.mp hr
    have ha := h1 r hr'
    have hb := h2 r hr'
    have : M * z v1 r + z v2 r < M * M := by
      calc M * z v1 r + z v2 r < M * z v1 r + M := by omega
        _ = M * (z v1 r + 1) := by ring
        _ ≤ M * M := Nat.mul_le_mul_left M (by omega)
    exact Finset.mem_range.mpr this
  have h := Finset.card_eq_sum_card_fiberwise hmem
  simpa [countZZ] using h.symm

/-- C8: at initialization every statistics row sums to `count_stats` (both are
one pseudo-observation), and one `update` call with in-range latent states
preserves the invariant, since it adds `batch_size` total mass to every row
and to `count_stats` and then multiplies all three by the same decay. -/
theorem row_sums_invariant :
    (∀ (M : ℕ) (edges : List (ℕ × ℕ)) (ar : ℚ), 0 < M →
      (EdgeGuide.init M edges ar).RowSums)
    ∧ (∀ (g : EdgeGuide) (num_rows : Option ℕ) (z : ℕ → ℕ → ℕ) (batch : ℕ),
        (∀ v r, r < batch → z v r < g.capacity) →
        g.RowSums → (g.update num_rows z batch).RowSums) := by
  constructor
  · intro M edges ar hM
    have hM' : ((M : ℚ)) ≠ 0 := by positivity
    constructor
    · intro v
      show ∑ _m ∈ Finset.range M, (1 / (M : ℚ)) = 1
      rw [Finset.sum_const, Finset.card_range, nsmul_eq_mul]
      field_simp
    · intro k
      show ∑ _c ∈ Finset.range (M * M), (1 / ((M : ℚ)) ^ 2) = 1
      rw [Finset.sum_const, Finset.card_range, nsmul_eq_mul]
      push_cast
      field_simp
      ring
  · intro g num_rows z batch hz hrs
    constructor
    · intro v
      show ∑ m ∈ Finset.range g.capacity,
          (g.vertex_stats v m + (countZ z batch v m : ℚ)) * _ = _
      rw [← Finset.sum_mul, Finset.sum_add_distrib, hrs.1 v, ← Nat.cast_sum,
        sum_countZ (fun r hr => hz v r hr)]
      rfl
    · intro k
      show ∑ c ∈ Finset.range (g.capacity * g.capacity),
          (g.complete_stats k c + (countZZ g.capacity z batch _ _ c : ℚ)) * _ = _
      rw [← Finset.sum_mul, Finset.sum_add_distrib, hrs.2 k, ← Nat.cast_sum,
        sum_countZZ (fun r hr => hz _ r hr) (fun r hr => hz _ r hr)]
      rfl

lemma decayFactor_mem_Ioc {ar cs : ℚ} (batch nr : ℕ) (har : 0 < ar)
    (hcs : 0 < cs) : decayFactor ar cs batch nr ∈ Set.Ioc (0 : ℚ) 1 := by
  have hb : (0 : ℚ) ≤ (batch : ℚ) := Nat.cast_nonneg batch
  have hn : (0 : ℚ) ≤ (nr : ℚ) := Nat.cast_nonneg nr
  have hd1 : (0 : ℚ) < 1 + (batch : ℚ) / cs := by positivity
  have hq : (0 : ℚ) ≤ (batch : ℚ) / (nr : ℚ) := by positivity
  have hd2 : (0 : ℚ) < 1 + (batch : ℚ) / (nr : ℚ) := by linarith
  constructor
  · apply lt_min
    · exact div_pos (by linarith) hd1
    · exact div_pos one_pos hd2
  · calc decayFactor ar cs batch nr ≤ 1 / (1 + (batch : ℚ) / (nr : ℚ)) :=
        min_le_right _ _
      _ ≤ 1 := by rw [div_le_one hd2]; linarith

lemma updateSeq_annealing (calls : List UpdateCall) :
    ∀ g : EdgeGuide, (g.updateSeq calls).annealing_rate = g.annealing_rate := by
  induction calls with
  | nil => intro g; rfl
  | cons c t ih => intro g; exact ih (g.update c.num_rows c.z c.batch)

lemma updateSeq_count_pos (calls : List UpdateCall) :
    ∀ g : EdgeGuide, 0 < g.annealing_rate → 0 < g.count_stats →
      0 < (g.updateSeq calls).count_stats := by
  induction calls with
  | nil => intro g _ h; exact h
  | cons c t ih =>
      intro g har hcs
      refine ih _ har ?_
      show 0 < (g.count_stats + (c.batch : ℚ)) * decayFactor _ _ _ _
      have hd := (decayFactor_mem_Ioc c.batch (c.num_rows.getD c.batch) har hcs).1
      have hb : (0 : ℚ) ≤ (c.batch : ℚ) := Nat.cast_nonneg c.batch
      exact mul_pos (by linarith) hd

/-- C7: starting from the initial pseudo-observation state, along any sequence
of `update` calls with `annealing_rate > 0` and `batch_size <= num_rows`,
`count_stats` stays strictly positive after every call and the decay factor
computed in every call lies in the half-open interval `(0, 1]`. -/
theorem update_count_pos_decay_Ioc (M : ℕ) (edges : List (ℕ × ℕ)) (ar : ℚ)
    (calls : List UpdateCall) (har : 0 < ar)
    (hcalls : ∀ c ∈ calls, c.batch ≤ c.nr) :
    (∀ i, 0 < ((EdgeGuide.init M edges ar).updateSeq (calls.take i)).count_stats)
    ∧ (∀ i, (hi : i < calls.length) →
        decayFactor ar
            ((EdgeGuide.init M edges ar).updateSeq (calls.take i)).count_stats
            (calls.get ⟨i, hi⟩).batch (calls.get ⟨i, hi⟩).nr
          ∈ Set.Ioc (0 : ℚ) 1) := by
  have hpos : ∀ i, 0 < ((EdgeGuide.init M edges ar).updateSeq (calls.take i)).count_stats := by
    intro i
    exact updateSeq_count_pos (calls.take i) (EdgeGuide.init M edges ar) har one_pos
  exact ⟨hpos, fun i hi => decayFactor_mem_Ioc _ _ har (hpos i)⟩

/-- C7 witness: the theorem applied to a concrete sequence of one call. -/
theorem update_count_pos_decay_Ioc_witness :
    (0 < ((EdgeGuide.init 2 [(0, 1)] 1).updateSeq
        (List.take 1 [({ num_rows := some 2, z := fun _ _ => 0, batch := 1 } :
          UpdateCall)])).count_stats) ∧
    decayFactor 1
        ((EdgeGuide.init 2 [(0, 1)] 1).updateSeq
          (List.take 0 [({ num_rows := some 2, z := fun _ _ => 0, batch := 1 } :
            UpdateCall)])).count_stats 1 2
      ∈ Set.Ioc (0 : ℚ) 1 := by
  have hcalls : ∀ c ∈ [({ num_rows := some 2, z := fun _ _ => 0, batch := 1 } :
      UpdateCall)], c.batch ≤ c.nr := by
    intro c hc
    rw [List.mem_singleton] at hc
    subst hc
    norm_num [UpdateCall.nr]
  have h := update_count_pos_decay_Ioc 2 [(0, 1)] 1
    [({ num_rows := some 2, z := fun _ _ => 0, batch := 1 } : UpdateCall)]
    one_pos hcalls
  exact ⟨h.1 1, h.2 0 (by norm_num)⟩

/-- C4: `get_posterior` reads the complete-graph row of each current tree edge
at index `k = v1 + v2*(v2-1)/2` of the stored endpoints and normalizes it
under prior `0.5/M` per cell; the vertex table is normalized under prior `0.5`
per cell; and for arbitrary non-negative statistics every vertex row and every
edge slice sums to exactly `1`. -/
theorem get_posterior_spec :
    (∀ (g : EdgeGuide) (e v1 v2 : ℕ), g.edges.getD e (0, 0) = (v1, v2) → ∀ c,
        g.edgeProbs e c
          = (1 / 2 / (g.capacity : ℚ) + g.complete_stats (v1 + v2 * (v2 - 1) / 2) c) /
              ∑ c' ∈ Finset.range (g.capacity * g.capacity),
                (1 / 2 / (g.capacity : ℚ) + g.complete_stats (v1 + v2 * (v2 - 1) / 2) c'))
    ∧ (∀ (g : EdgeGuide) (v : ℕ), 0 < g.capacity →
        (∀ m, 0 ≤ g.vertex_stats v m) →
        ∑ m ∈ Finset.range g.capacity, g.vertexProbs v m = 1)
    ∧ (∀ (g : EdgeGuide) (e : ℕ), 0 < g.capacity →
        (∀ c, 0 ≤ g.complete_stats (g.edgeK e) c) →
        ∑ c ∈ Finset.range (g.capacity * g.capacity), g.edgeProbs e c = 1) := by
  refine ⟨?_, ?_, ?_⟩
  · intro g e v1 v2 he c
    show (1 / 2 / (g.capacity : ℚ) + g.complete_stats (g.edgeK e) c) / _ = _
    rw [EdgeGuide.edgeK, he]
    rfl
  · intro g v hM hs
    have hpos : 0 < ∑ m' ∈ Finset.range g.capacity, (1 / 2 + g.vertex_stats v m') := by
      apply Finset.sum_pos
      · intro m _
        have := hs m
        linarith
      · exact Finset.nonempty_range_iff.mpr (by omega)
    simp only [EdgeGuide.vertexProbs]
    rw [← Finset.sum_div, div_self (ne_of_gt hpos)]
  · intro g e hM hs
    have hp : (0 : ℚ) < 1 / 2 / (g.capacity : ℚ) := by
      have : (0 : ℚ) < (g.capacity : ℚ) := by exact_mod_cast hM
      positivity
    have hpos : 0 < ∑ c' ∈ Finset.range (g.capacity * g.capacity),
        (1 / 2 / (g.capacity : ℚ) + g.complete_stats (g.edgeK e) c') := by
      apply Finset.sum_pos
      · intro c _
        have := hs c
        linarith
      · exact Finset.nonempty_range_iff.mpr (by positivity)
    simp only [EdgeGuide.edgeProbs]
    rw [← Finset.sum_div, div_self (ne_of_gt hpos)]

/-- C4 witness: the theorem applied to a concrete guide. -/
theorem get_posterior_spec_witness :
    ((EdgeGuide.init 2 [(0, 1)] 1).edges.getD 0 (0, 0) = (0, 1) ∧
      (EdgeGuide.init 2 [(0, 1)] 1).edgeProbs 0 0
        = (1 / 2 / ((EdgeGuide.init 2 [(0, 1)] 1).capacity : ℚ)
            + (EdgeGuide.init 2 [(0, 1)] 1).complete_stats (0 + 1 * (1 - 1) / 2) 0) /
            ∑ c' ∈ Finset.range
                ((EdgeGuide.init 2 [(0, 1)] 1).capacity * (EdgeGuide.init 2 [(0, 1)] 1).capacity),
              (1 / 2 / ((EdgeGuide.init 2 [(0, 1)] 1).capacity : ℚ)
                + (EdgeGuide.init 2 [(0, 1)] 1).complete_stats (0 + 1 * (1 - 1) / 2) c'))
    ∧ (0 < (EdgeGuide.init 2 [(0, 1)] 1).capacity ∧
        ∑ m ∈ Finset.range (EdgeGuide.init 2 [(0, 1)] 1).capacity,
          (EdgeGuide.init 2 [(0, 1)] 1).vertexProbs 0 m = 1)
    ∧ ∑ c ∈ Finset.range
          ((EdgeGuide.init 2 [(0, 1)] 1).capacity * (EdgeGuide.init 2 [(0, 1)] 1).capacity),
        (EdgeGuide.init 2 [(0, 1)] 1).edgeProbs 0 c = 1 := by
  have hM : 0 < (EdgeGuide.init 2 [(0, 1)] 1).capacity := by norm_num [EdgeGuide.init]
  refine ⟨⟨rfl, get_posterior_spec.1 (EdgeGuide.init 2 [(0, 1)] 1) 0 0 1 rfl 0⟩,
    ⟨hM, get_posterior_spec.2.1 (EdgeGuide.init 2 [(0, 1)] 1) 0 hM fun m => ?_⟩,
    get_posterior_spec.2.2 (EdgeGuide.init 2 [(0, 1)] 1) 0 hM fun c => ?_⟩
  · show (0 : ℚ) ≤ 1 / ((2 : ℕ) : ℚ)
    norm_num
  · show (0 : ℚ) ≤ 1 / ((2 : ℕ) : ℚ) ^ 2
    norm_num

lemma dirmulRow_eq_dirmulRef (lg : ℚ → ℚ) (alpha : ℚ) (counts : List ℚ) :
    dirmulRow lg alpha counts = dirmulRef lg alpha counts := by
  induction counts with
  | nil => simp [dirmulRow, dirmulRef]
  | cons c t ih =>
      simp only [dirmulRow, dirmulRef, List.map_cons, List.sum_cons] at ih ⊢
      rw [add_comm c alpha, add_comm c 1]
      linarith

/-- C3: `compute_edge_logits` returns one entry per pair of the complete graph
(`K = V*(V-1)/2` entries, tree edges or not); the entry of pair `(v1, v2)` is
the Dirichlet-multinomial score of the pairwise count row with concentration
`0.5/M` minus the scores of the two endpoint vertex rows with concentration
`0.5`; and the optimized tensor arrangement of `_dirmul_log_prob` equals the
reference formula `sum lgamma(alpha + counts) - sum lgamma(1 + counts)`. -/
theorem compute_edge_logits_spec :
    (∀ (g : EdgeGuide) (lg : ℚ → ℚ),
        (g.edgeLogits lg).length = g.V * (g.V - 1) / 2)
    ∧ (∀ (g : EdgeGuide) (lg : ℚ → ℚ) (v1 v2 : ℕ), v1 < v2 → v2 < g.V →
        (g.edgeLogits lg).getD (pairIndex v1 v2) 0
          = dirmulRef lg (1 / 2 / (g.capacity : ℚ)) (g.completeRow (pairIndex v1 v2))
              - dirmulRef lg (1 / 2) (g.vertexRow v1)
              - dirmulRef lg (1 / 2) (g.vertexRow v2))
    ∧ (∀ (lg : ℚ → ℚ) (alpha : ℚ) (counts : List ℚ),
        dirmulRow lg alpha counts = dirmulRef lg alpha counts) := by
  refine ⟨?_, ?_, dirmulRow_eq_dirmulRef⟩
  · intro g lg
    simp [EdgeGuide.edgeLogits, EdgeGuide.K]
  · intro g lg v1 v2 h12 hV
    have hlt : pairIndex v1 v2 < g.K := pairIndex_lt h12 hV
    rw [EdgeGuide.edgeLogits, List.getD_eq_getElem?_getD, List.getElem?_map,
      List.getElem?_range hlt]
    simp only [Option.map_some', Option.getD_some]
    rw [gridFst_pairIndex h12 hV, gridSnd_pairIndex h12 hV,
      dirmulRow_eq_dirmulRef, dirmulRow_eq_dirmulRef, dirmulRow_eq_dirmulRef]

/-- C3 witness: the theorem applied to a concrete guide, `lgamma` kernel and
pair. -/
theorem compute_edge_logits_spec_witness :
    (0 < 1 ∧ 1 < (EdgeGuide.init 2 [(0, 1)] 1).V) ∧
    ((EdgeGuide.init 2 [(0, 1)] 1).edgeLogits id).getD (pairIndex 0 1) 0
      = dirmulRef id (1 / 2 / ((EdgeGuide.init 2 [(0, 1)] 1).capacity : ℚ))
            ((EdgeGuide.init 2 [(0, 1)] 1).completeRow (pairIndex 0 1))
          - dirmulRef id (1 / 2) ((EdgeGuide.init 2 [(0, 1)] 1).vertexRow 0)
          - dirmulRef id (1 / 2) ((EdgeGuide.init 2 [(0, 1)] 1).vertexRow 1) := by
  have h1 : (0 : ℕ) < 1 := one_pos
  have h2 : 1 < (EdgeGuide.init 2 [(0, 1)] 1).V := by
    show 1 < [(0, 1)].length + 1
    norm_num
  exact ⟨⟨h1, h2⟩,
    compute_edge_logits_spec.2.1 (EdgeGuide.init 2 [(0, 1)] 1) id 0 1 h1 h2⟩

/-- C9: each listed precondition violation refutes the corresponding assertion
predicate: `capacity <= 1` or an edge list whose length is not `V - 1` refutes
the constructor check; a data list whose length differs from the feature count,
or one whose columns are all missing, refutes the model-call check; and
`batch_size > num_rows` refutes the statistics-update check (which the source
evaluates before mutating any statistics field). -/
theorem precondition_asserts :
    (∀ (nf capacity : ℕ) (edges : List (ℕ × ℕ)),
        capacity ≤ 1 → ¬ treeCatInitOk nf capacity edges)
    ∧ (∀ (nf capacity : ℕ) (edges : List (ℕ × ℕ)),
        edges.length ≠ nf - 1 → ¬ treeCatInitOk nf capacity edges)
    ∧ (∀ (nf : ℕ) (data : List Bool), data.length ≠ nf → ¬ modelArgsOk nf data)
    ∧ (∀ (nf : ℕ) (data : List Bool), (∀ b ∈ data, b = false) → ¬ modelArgsOk nf data)
    ∧ (∀ (g : EdgeGuide) (num_rows : Option ℕ) (batch : ℕ),
        num_rows.getD batch < batch → ¬ g.updateOk num_rows batch) := by
  refine ⟨?_, ?_, ?_, ?_, ?_⟩
  · intro nf capacity edges hcap hok
    exact absurd hok.1 (by omega)
  · intro nf capacity edges hlen hok
    exact hlen hok.2
  · intro nf data hlen hok
    exact hlen hok.1
  · intro nf data hall hok
    rcases List.any_eq_true.mp hok.2 with ⟨b, hb, hbt⟩
    rw [hall b hb] at hbt
    exact Bool.noConfusion hbt
  · intro g num_rows batch hlt hok
    exact absurd hok.1 (by omega)

/-- C9 witness: the theorem applied to concrete violating inputs. -/
theorem precondition_asserts_witness :
    (¬ treeCatInitOk 3 1 [(0, 1), (1, 2)])
    ∧ (¬ treeCatInitOk 3 2 [(0, 1)])
    ∧ (¬ modelArgsOk 3 [true, true])
    ∧ (¬ modelArgsOk 2 [false, false])
    ∧ (¬ (EdgeGuide.init 2 [(0, 1)] 1).updateOk (some 1) 3) := by
  exact ⟨precondition_asserts.1 3 1 [(0, 1), (1, 2)] (by norm_num),
    precondition_asserts.2.1 3 2 [(0, 1)] (by norm_num),
    precondition_asserts.2.2.1 3 [true, true] (by norm_num),
    precondition_asserts.2.2.2.1 2 [false, false] (by decide),
    precondition_asserts.2.2.2.2 (EdgeGuide.init 2 [(0, 1)] 1) (some 1) 3 (by norm_num)⟩

/-- C6: in one `_propagate` step, a vertex with no assigned neighbor (the
root) draws from row `v` of the vertex table with no parent conditioning, and
a vertex whose assigned neighbors are exactly its parent `v0` with realized
state `m0` draws from the edge row of `(v, v0)` reshaped to `M × M`,
transposed exactly when `v0 > v`, at the row selected by `m0`: flat index
`m * M + m0` in the transposed case and `m0 * M + m` otherwise. -/
theorem propagate_conditional (M : ℕ) (edgeIdx : ℕ → ℕ → ℕ) (vp ep : ℕ → ℕ → ℚ)
    (nbrs : ℕ → Finset ℕ) (z : ℕ → Option ℕ) (v : ℕ) :
    (assignedNbrs nbrs z v = ∅ → propagateProbs M edgeIdx vp ep nbrs z v = vp v)
    ∧ (∀ v0 m0, assignedNbrs nbrs z v = {v0} → z v0 = some m0 →
        ∀ m, propagateProbs M edgeIdx vp ep nbrs z v m
          = if v0 > v then ep (edgeIdx v v0) (m * M + m0)
            else ep (edgeIdx v v0) (m0 * M + m)) := by
  constructor
  · intro h
    rw [propagateProbs, dif_neg]
    rw [h]
    exact Finset.not_nonempty_empty
  · intro v0 m0 h hz m
    have hne : (assignedNbrs nbrs z v).Nonempty := by
      rw [h]; exact Finset.singleton_nonempty v0
    rw [propagateProbs, dif_pos hne]
    have hmax : (assignedNbrs nbrs z v).max' hne = v0 := by
      simp [h]
    simp only [hmax, hz, Option.getD_some, reshapeSquare, transposeSquare]
    by_cases hgt : v0 > v
    · simp only [if_pos hgt]
      rfl
    · simp only [if_neg hgt]
      rfl

/-- C6 witness: the theorem applied to a concrete step state whose assigned
neighborhood is the single parent. -/
theorem propagate_conditional_witness :
    (assignedNbrs (fun _ => ({0, 2} : Finset ℕ))
        (fun u => if u = 0 then some 1 else none) 1 = {0}) ∧
    propagateProbs 2 (fun _ _ => 0) (fun _ _ => 0) (fun _ c => (c : ℚ))
        (fun _ => ({0, 2} : Finset ℕ)) (fun u => if u = 0 then some 1 else none) 1 0
      = (if (0 : ℕ) > 1 then ((0 * 2 + 1 : ℕ) : ℚ) else ((1 * 2 + 0 : ℕ) : ℚ)) := by
  have h : assignedNbrs (fun _ => ({0, 2} : Finset ℕ))
      (fun u => if u = 0 then some 1 else none) 1 = {0} := by decide
  exact ⟨h, (propagate_conditional 2 (fun _ _ => 0) (fun _ _ => 0) (fun _ c => (c : ℚ))
    (fun _ => ({0, 2} : Finset ℕ)) (fun u => if u = 0 then some 1 else none) 1).2
      0 1 h rfl 0⟩

/-- C8 witness: the theorem applied to a concrete initial guide and a concrete
in-range update. -/
theorem row_sums_invariant_witness :
    (EdgeGuide.init 2 [(0, 1)] 1).RowSums ∧
    ((EdgeGuide.init 2 [(0, 1)] 1).update (some 2) (fun _ _ => 1) 1).RowSums := by
  have h0 : (EdgeGuide.init 2 [(0, 1)] 1).RowSums :=
    row_sums_invariant.1 2 [(0, 1)] 1 (by norm_num)
  refine ⟨h0, row_sums_invariant.2 (EdgeGuide.init 2 [(0, 1)] 1) (some 2)
    (fun _ _ => 1) 1 (fun v r _ => ?_) h0⟩
  show 1 < (EdgeGuide.init 2 [(0, 1)] 1).capacity
  norm_num [EdgeGuide.init]

lemma finsetAscAux_spec :
    ∀ (fuel : ℕ) (s : Finset ℕ), s.card ≤ fuel →
      (finsetAscAux fuel s).Nodup ∧ (∀ x, x ∈ finsetAscAux fuel s ↔ x ∈ s) ∧
      (finsetAscAux fuel s).Sorted (· ≤ ·) := by
  intro fuel
  induction fuel with
  | zero =>
      intro s hs
      have : s = ∅ := Finset.card_eq_zero.mp (by omega)
      subst this
      simp [finsetAscAux]
  | succ fuel ih =>
      intro s hs
      by_cases h : s.Nonempty
      · have hmin : s.min' h ∈ s := s.min'_mem h
        have hcard : (s.erase (s.min' h)).card ≤ fuel := by
          have := Finset.card_erase_add_one hmin
          omega
        obtain ⟨h1, h2, h3⟩ := ih (s.erase (s.min' h)) hcard
        rw [finsetAscAux, dif_pos h]
        refine ⟨?_, ?_, ?_⟩
        · rw [List.nodup_cons]
          refine ⟨fun hmem => ?_, h1⟩
          exact (Finset.mem_erase.mp ((h2 _).mp hmem)).1 rfl
        · intro x
          rw [List.mem_cons, h2 x, Finset.mem_erase]
          constructor
          · rintro (rfl | ⟨_, hx⟩)
            · exact hmin
            · exact hx
          · intro hx
            by_cases hxm : x = s.min' h
            · exact Or.inl hxm
            · exact Or.inr ⟨hxm, hx⟩
        · rw [List.sorted_cons]
          refine ⟨fun b hb => ?_, h3⟩
          exact s.min'_le b (Finset.mem_erase.mp ((h2 b).mp hb)).2
      · rw [finsetAscAux, dif_neg h]
        rw [Finset.not_nonempty_iff_eq_empty] at h
        subst h
        simp

lemma finsetAsc_eq_sort (s : Finset ℕ) : finsetAsc s = s.sort (· ≤ ·) := by
  obtain ⟨h1, h2, h3⟩ := finsetAscAux_spec s.card s le_rfl
  refine List.eq_of_perm_of_sorted ?_ h3 (Finset.sort_sorted _ _)
  refine (List.perm_ext_iff_of_nodup h1 (Finset.sort_nodup _ _)).mpr ?_
  intro x
  rw [h2 x, Finset.mem_sort]

lemma finsetAsc_empty : finsetAsc ∅ = [] := by
  rw [finsetAsc_eq_sort, Finset.sort_empty]

lemma finsetAsc_singleton (u : ℕ) : finsetAsc {u} = [u] := by
  rw [finsetAsc_eq_sort, Finset.sort_singleton]

lemma stripVisit_of_empty {nbrs : ℕ → Finset ℕ} {queue : List ℕ} {v : ℕ}
    (h : nbrs v = ∅) : stripVisit nbrs queue v = (nbrs, queue) := by
  rw [stripVisit, h, finsetAsc_empty]
  rfl

lemma stripVisit_of_singleton {nbrs : ℕ → Finset ℕ} (queue : List ℕ) {v u : ℕ}
    (h : nbrs v = {u}) :
    stripVisit nbrs queue v =
      (Function.update nbrs u ((nbrs u).erase v),
       if ((nbrs u).erase v).card = 1 then queue ++ [u] else queue) := by
  rw [stripVisit, h, finsetAsc_singleton, List.foldl_cons, List.foldl_nil]
  simp [Function.update_same]

lemma stripPops_nil (nbrs : ℕ → Finset ℕ) (fuel : ℕ) :
    stripPops nbrs [] fuel = [] := by
  cases fuel <;> rfl

lemma stripPops_cons (nbrs : ℕ → Finset ℕ) (v : ℕ) (rest : List ℕ) (fuel : ℕ) :
    stripPops nbrs (v :: rest) (fuel + 1)
      = v :: stripPops (stripVisit nbrs rest v).1 (stripVisit nbrs rest v).2 fuel :=
  rfl

lemma stripPops_visits_all
    (V : ℕ) (orig : ℕ → Finset ℕ)
    (hsym : ∀ u v, u ∈ orig v ↔ v ∈ orig u)
    (hrange : ∀ v u, u ∈ orig v → u < V)
    (hleaf : ∀ S : Finset ℕ, (∀ v ∈ S, v < V) → S.Nonempty →
      ∃ v ∈ S, (orig v ∩ S).card ≤ 1) :
    ∀ (fuel : ℕ) (P : Finset ℕ) (nbrs : ℕ → Finset ℕ) (queue : List ℕ),
      (∀ v, v ∉ P → nbrs v = orig v \ P) →
      queue.Nodup →
      (∀ v ∈ queue, v ∉ P ∧ v < V) →
      (∀ v, v < V → v ∉ P → ((orig v \ P).card ≤ 1 ↔ v ∈ queue)) →
      P ⊆ Finset.range V →
      V - P.card < fuel →
      (stripPops nbrs queue fuel).Nodup ∧
      (∀ p ∈ stripPops nbrs queue fuel, p ∉ P) ∧
      P ∪ (stripPops nbrs queue fuel).toFinset = Finset.range V := by
  intro fuel
  induction fuel with
  | zero => intro P nbrs queue _ _ _ _ _ hf; omega
  | succ fuel ih =>
      intro P nbrs queue h1 h2 h3 h4 h5 hf
      cases queue with
      | nil =>
          rw [stripPops_nil]
          refine ⟨List.nodup_nil, by simp, ?_⟩
          simp only [List.toFinset_nil, Finset.union_empty]
          refine Finset.Subset.antisymm h5 ?_
          intro w hw
          by_contra hwP
          obtain ⟨x, hxS, hx1⟩ := hleaf (Finset.range V \ P)
            (fun v hv => Finset.mem_range.mp (Finset.mem_sdiff.mp hv).1)
            ⟨w, Finset.mem_sdiff.mpr ⟨hw, hwP⟩⟩
          obtain ⟨hxV, hxP⟩ := Finset.mem_sdiff.mp hxS
          have hEq : orig x ∩ (Finset.range V \ P) = orig x \ P := by
            ext u
            simp only [Finset.mem_inter, Finset.mem_sdiff, Finset.mem_range]
            constructor
            · rintro ⟨hu, _, hup⟩
              exact ⟨hu, hup⟩
            · rintro ⟨hu, hup⟩
              exact ⟨hu, hrange x u hu, hup⟩
          rw [hEq] at hx1
          exact List.not_mem_nil x ((h4 x (Finset.mem_range.mp hxV) hxP).mp hx1)
      | cons v rest =>
          obtain ⟨hvP, hvV⟩ := h3 v (List.mem_cons_self v rest)
          have hvcard : (orig v \ P).card ≤ 1 :=
            (h4 v hvV hvP).mpr (List.mem_cons_self v rest)
          have hnbv : nbrs v = orig v \ P := h1 v hvP
          obtain ⟨hvnotin, hnodup⟩ := List.nodup_cons.mp h2
          have hvr : v ∈ Finset.range V := Finset.mem_range.mpr hvV
          have hPlt : P.card < V := by
            have : P ⊂ Finset.range V := by
              rw [Finset.ssubset_def]
              exact ⟨h5, fun hc => hvP (hc hvr)⟩
            have := Finset.card_lt_card this
            simpa using this
          have h5' : insert v P ⊆ Finset.range V := Finset.insert_subset hvr h5
          have hf' : V - (insert v P).card < fuel := by
            rw [Finset.card_insert_of_not_mem hvP]
            omega
          -- shared final assembly once the post-visit state satisfies the
          -- invariants at insert v P
          have hstep : ∀ (nb : ℕ → Finset ℕ) (q : List ℕ),
              (∀ w, w ∉ insert v P → nb w = orig w \ insert v P) →
              q.Nodup →
              (∀ w ∈ q, w ∉ insert v P ∧ w < V) →
              (∀ w, w < V → w ∉ insert v P →
                ((orig w \ insert v P).card ≤ 1 ↔ w ∈ q)) →
              (v :: stripPops nb q fuel).Nodup ∧
              (∀ p ∈ v :: stripPops nb q fuel, p ∉ P) ∧
              P ∪ (v :: stripPops nb q fuel).toFinset = Finset.range V := by
            intro nb q j1 j2 j3 j4
            obtain ⟨hnd, hnp, hun⟩ := ih (insert v P) nb q j1 j2 j3 j4 h5' hf'
            refine ⟨?_, ?_, ?_⟩
            · rw [List.nodup_cons]
              exact ⟨fun hv => hnp v hv (Finset.mem_insert_self v P), hnd⟩
            · intro p hp
              rcases List.mem_cons.mp hp with rfl | hp'
              · exact hvP
              · exact fun hpP => hnp p hp' (Finset.mem_insert_of_mem hpP)
            · rw [List.toFinset_cons, Finset.union_insert, ← Finset.insert_union]
              exact hun
          -- every still-unpopped vertex other than a neighbor kept by the visit
          -- is not adjacent to v
          have hkey : ∀ w, w ∉ insert v P → w ∉ orig v \ P → v ∉ orig w := by
            intro w hw hwv hvw
            have : w ∈ orig v := (hsym v w).mp hvw
            exact hwv (Finset.mem_sdiff.mpr
              ⟨this, fun hwP => hw (Finset.mem_insert_of_mem hwP)⟩)
          have hsd : ∀ w, v ∉ orig w → orig w \ insert v P = orig w \ P := by
            intro w hvw
            ext u
            simp only [Finset.mem_sdiff, Finset.mem_insert, not_or]
            constructor
            · rintro ⟨hu, _, hup⟩
              exact ⟨hu, hup⟩
            · rintro ⟨hu, hup⟩
              refine ⟨hu, fun he => hvw (he ▸ hu), hup⟩
          rcases Nat.le_one_iff_eq_zero_or_eq_one.mp hvcard with hc0 | hc1
          · -- the popped vertex has no remaining neighbor
            have hre : orig v \ P = ∅ := Finset.card_eq_zero.mp hc0
            have hvisit : stripVisit nbrs rest v = (nbrs, rest) :=
              stripVisit_of_empty (by rw [hnbv, hre])
            rw [stripPops_cons, hvisit]
            refine hstep nbrs rest ?_ hnodup ?_ ?_
            · intro w hw
              have hwP : w ∉ P := fun hp => hw (Finset.mem_insert_of_mem hp)
              rw [h1 w hwP, hsd w (hkey w hw (by rw [hre]; exact Finset.not_mem_empty w))]
            · intro w hwq
              obtain ⟨hwP, hwV⟩ := h3 w (List.mem_cons_of_mem v hwq)
              have hwv : w ≠ v := fun he => hvnotin (he ▸ hwq)
              exact ⟨fun hm => (Finset.mem_insert.mp hm).elim hwv hwP, hwV⟩
            · intro w hwV hw
              have hwP : w ∉ P := fun hp => hw (Finset.mem_insert_of_mem hp)
              have hwv : w ≠ v := fun he => hw (he ▸ Finset.mem_insert_self v P)
              rw [hsd w (hkey w hw (by rw [hre]; exact Finset.not_mem_empty w))]
              rw [h4 w hwV hwP, List.mem_cons]
              exact ⟨fun h => h.elim (fun he => absurd he hwv) id, Or.inr⟩
          · -- the popped vertex has exactly one remaining neighbor u
            obtain ⟨u, hu⟩ := Finset.card_eq_one.mp hc1
            have humem : u ∈ orig v ∧ u ∉ P := by
              have : u ∈ orig v \ P := by rw [hu]; exact Finset.mem_singleton_self u
              exact ⟨(Finset.mem_sdiff.mp this).1, (Finset.mem_sdiff.mp this).2⟩
            have huV : u < V := hrange v u humem.1
            have hvu : v ∈ orig u := (hsym u v).mp humem.1
            by_cases huv : u = v
            · -- degenerate self-loop case: the update hits only v itself
              subst huv
              have hvisit := stripVisit_of_singleton rest
                (show nbrs u = {u} by rw [hnbv, hu])
              have herase : (nbrs u).erase u = ∅ := by
                rw [hnbv, hu, Finset.erase_singleton]
              rw [stripPops_cons, hvisit]
              simp only [herase, Finset.card_empty]
              rw [if_neg (by omega)]
              refine hstep _ rest ?_ hnodup ?_ ?_
              · intro w hw
                have hwP : w ∉ P := fun hp => hw (Finset.mem_insert_of_mem hp)
                have hwu : w ≠ u := fun he => hw (he ▸ Finset.mem_insert_self u P)
                rw [Function.update_noteq hwu, h1 w hwP]
                have hvw : u ∉ orig w := by
                  intro hm
                  have : w ∈ orig u := (hsym u w).mp hm
                  have : w ∈ orig u \ P := Finset.mem_sdiff.mpr ⟨this, hwP⟩
                  rw [hu] at this
                  exact hwu (Finset.mem_singleton.mp this)
                rw [hsd w hvw]
              · intro w hwq
                obtain ⟨hwP, hwV⟩ := h3 w (List.mem_cons_of_mem u hwq)
                have hwv : w ≠ u := fun he => hvnotin (he ▸ hwq)
                exact ⟨fun hm => (Finset.mem_insert.mp hm).elim hwv hwP, hwV⟩
              · intro w hwV hw
                have hwP : w ∉ P := fun hp => hw (Finset.mem_insert_of_mem hp)
                have hwu : w ≠ u := fun he => hw (he ▸ Finset.mem_insert_self u P)
                have hvw : u ∉ orig w := by
                  intro hm
                  have : w ∈ orig u := (hsym u w).mp hm
                  have : w ∈ orig u \ P := Finset.mem_sdiff.mpr ⟨this, hwP⟩
                  rw [hu] at this
                  exact hwu (Finset.mem_singleton.mp this)
                rw [hsd w hvw, h4 w hwV hwP, List.mem_cons]
                exact ⟨fun h => h.elim (fun he => absurd he hwu) id, Or.inr⟩
            · -- proper neighbor: erase v from the neighbor set of u
              have huP' : u ∉ insert v P :=
                fun hm => (Finset.mem_insert.mp hm).elim huv humem.2
              have hnbu : nbrs u = orig u \ P := h1 u humem.2
              have herase : (nbrs u).erase v = orig u \ insert v P := by
                rw [hnbu, Finset.sdiff_insert]
              have hvmem : v ∈ orig u \ P := Finset.mem_sdiff.mpr ⟨hvu, hvP⟩
              have hcardu : (orig u \ insert v P).card + 1 = (orig u \ P).card := by
                rw [Finset.sdiff_insert]
                exact Finset.card_erase_add_one hvmem
              have hvisit := stripVisit_of_singleton rest
                (show nbrs v = {u} by rw [hnbv, hu])
              -- invariants that do not depend on the queue branch
              have j1 : ∀ w, w ∉ insert v P →
                  Function.update nbrs u ((nbrs u).erase v) w = orig w \ insert v P := by
                intro w hw
                by_cases hwu : w = u
                · subst hwu
                  rw [Function.update_same, herase]
                · rw [Function.update_noteq hwu]
                  have hwP : w ∉ P := fun hp => hw (Finset.mem_insert_of_mem hp)
                  have hvw : v ∉ orig w := by
                    refine hkey w hw ?_
                    rw [hu]
                    exact fun hm => hwu (Finset.mem_singleton.mp hm)
                  rw [h1 w hwP, hsd w hvw]
              have hsame : ∀ w, w ∉ insert v P → w ≠ u →
                  orig w \ insert v P = orig w \ P := by
                intro w hw hwu
                refine hsd w (hkey w hw ?_)
                rw [hu]
                exact fun hm => hwu (Finset.mem_singleton.mp hm)
              have holdu := h4 u huV humem.2
              rw [stripPops_cons, hvisit]
              by_cases hbranch : ((nbrs u).erase v).card = 1
              · -- the degree of u drops to exactly 1: u is appended
                rw [if_pos hbranch]
                rw [herase] at hbranch
                have holdu2 : (orig u \ P).card = 2 := by omega
                have hunotq : u ∉ rest := by
                  intro hm
                  have := holdu.mpr (List.mem_cons_of_mem v hm)
                  omega
                refine hstep _ (rest ++ [u]) j1 ?_ ?_ ?_
                · rw [List.nodup_append]
                  refine ⟨hnodup, List.nodup_singleton u, ?_⟩
                  intro a ha hb
                  rw [List.mem_singleton] at hb
                  exact hunotq (hb ▸ ha)
                · intro w hwq
                  rcases List.mem_append.mp hwq with hwr | hwu
                  · obtain ⟨hwP, hwV⟩ := h3 w (List.mem_cons_of_mem v hwr)
                    have hwv : w ≠ v := fun he => hvnotin (he ▸ hwr)
                    exact ⟨fun hm => (Finset.mem_insert.mp hm).elim hwv hwP, hwV⟩
                  · rw [List.mem_singleton] at hwu
                    subst hwu
                    exact ⟨huP', huV⟩
                · intro w hwV hw
                  by_cases hwu : w = u
                  · subst hwu
                    rw [hbranch]
                    simp [List.mem_append]
                  · rw [hsame w hw hwu]
                    have hwP : w ∉ P := fun hp => hw (Finset.mem_insert_of_mem hp)
                    have hwv : w ≠ v := fun he => hw (he ▸ Finset.mem_insert_self v P)
                    rw [h4 w hwV hwP, List.mem_cons, List.mem_append, List.mem_singleton]
                    constructor
                    · intro h
                      exact Or.inl (h.elim (fun he => absurd he hwv) id)
                    · intro h
                      exact Or.inr (h.elim id (fun he => absurd he hwu))
              · -- the degree of u does not become 1: queue unchanged
                rw [if_neg hbranch]
                rw [herase] at hbranch
                refine hstep _ rest j1 hnodup ?_ ?_
                · intro w hwq
                  obtain ⟨hwP, hwV⟩ := h3 w (List.mem_cons_of_mem v hwq)
                  have hwv : w ≠ v := fun he => hvnotin (he ▸ hwq)
                  exact ⟨fun hm => (Finset.mem_insert.mp hm).elim hwv hwP, hwV⟩
                · intro w hwV hw
                  by_cases hwu : w = u
                  · subst hwu
                    constructor
                    · intro hle
                      have hle' : (orig w \ P).card ≤ 1 := by omega
                      rcases List.mem_cons.mp (holdu.mp hle') with he | hm
                      · exact absurd he huv
                      · exact hm
                    · intro hm
                      have := holdu.mpr (List.mem_cons_of_mem v hm)
                      omega
                  · rw [hsame w hw hwu]
                    have hwP : w ∉ P := fun hp => hw (Finset.mem_insert_of_mem hp)
                    have hwv : w ≠ v := fun he => hw (he ▸ Finset.mem_insert_self v P)
                    rw [h4 w hwV hwP, List.mem_cons]
                    exact ⟨fun h => h.elim (fun he => absurd he hwv) id, Or.inr⟩

lemma mem_addEdge {nbrs : ℕ → Finset ℕ} {e : ℕ × ℕ} {v u : ℕ} :
    u ∈ addEdge nbrs e v ↔ (v = e.1 ∧ u = e.2) ∨ (v = e.2 ∧ u = e.1) ∨ u ∈ nbrs v := by
  simp only [addEdge, Finset.mem_union]
  constructor
  · rintro ((h | h) | h)
    · by_cases h1 : v = e.1
      · rw [if_pos h1, Finset.mem_singleton] at h
        exact Or.inl ⟨h1, h⟩
      · rw [if_neg h1] at h
        exact absurd h (Finset.not_mem_empty u)
    · by_cases h2 : v = e.2
      · rw [if_pos h2, Finset.mem_singleton] at h
        exact Or.inr (Or.inl ⟨h2, h⟩)
      · rw [if_neg h2] at h
        exact absurd h (Finset.not_mem_empty u)
    · exact Or.inr (Or.inr h)
  · rintro (⟨h1, h⟩ | ⟨h2, h⟩ | h)
    · exact Or.inl (Or.inl (by rw [if_pos h1, Finset.mem_singleton]; exact h))
    · exact Or.inl (Or.inr (by rw [if_pos h2, Finset.mem_singleton]; exact h))
    · exact Or.inr h

lemma mem_foldl_addEdge (edges : List (ℕ × ℕ)) :
    ∀ (nbrs : ℕ → Finset ℕ) (v u : ℕ),
      u ∈ edges.foldl addEdge nbrs v ↔
        ((v, u) ∈ edges ∨ (u, v) ∈ edges) ∨ u ∈ nbrs v := by
  induction edges with
  | nil => simp
  | cons e t ih =>
      intro nbrs v u
      rw [List.foldl_cons, ih, mem_addEdge]
      simp only [List.mem_cons, Prod.ext_iff]
      tauto

lemma mem_buildNeighbors {edges : List (ℕ × ℕ)} {v u : ℕ} :
    u ∈ buildNeighbors edges v ↔ (v, u) ∈ edges ∨ (u, v) ∈ edges := by
  rw [buildNeighbors, mem_foldl_addEdge]
  simp

lemma buildNeighbors_symm (edges : List (ℕ × ℕ)) (u v : ℕ) :
    u ∈ buildNeighbors edges v ↔ v ∈ buildNeighbors edges u := by
  rw [mem_buildNeighbors, mem_buildNeighbors]
  tauto

lemma forest_adj {V : ℕ} {edges : List (ℕ × ℕ)} {r : ℕ} {parent depth : ℕ → ℕ}
    (hF : IsParentForest V edges r parent depth) {v u : ℕ}
    (h : u ∈ buildNeighbors edges v) :
    (u < V ∧ u ≠ r ∧ parent u = v ∧ v < V)
      ∨ (v < V ∧ v ≠ r ∧ parent v = u ∧ u < V) := by
  rcases mem_buildNeighbors.mp h with h' | h'
  · rcases hF.2 (v, u) h' with ⟨h1, h2, h3⟩ | ⟨h1, h2, h3⟩ <;> dsimp only at h1 h2 h3
    · exact Or.inl ⟨h1, h2, h3, h3 ▸ (hF.1 u h1 h2).1⟩
    · exact Or.inr ⟨h1, h2, h3, h3 ▸ (hF.1 v h1 h2).1⟩
  · rcases hF.2 (u, v) h' with ⟨h1, h2, h3⟩ | ⟨h1, h2, h3⟩ <;> dsimp only at h1 h2 h3
    · exact Or.inr ⟨h1, h2, h3, h3 ▸ (hF.1 v h1 h2).1⟩
    · exact Or.inl ⟨h1, h2, h3, h3 ▸ (hF.1 u h1 h2).1⟩

lemma forest_range {V : ℕ} {edges : List (ℕ × ℕ)} {r : ℕ} {parent depth : ℕ → ℕ}
    (hF : IsParentForest V edges r parent depth) (v u : ℕ)
    (h : u ∈ buildNeighbors edges v) : u < V := by
  rcases forest_adj hF h with ⟨h1, _⟩ | ⟨_, _, _, h4⟩
  · exact h1
  · exact h4

lemma forest_leaf {V : ℕ} {edges : List (ℕ × ℕ)} {r : ℕ} {parent depth : ℕ → ℕ}
    (hF : IsParentForest V edges r parent depth) (S : Finset ℕ)
    (hS : ∀ v ∈ S, v < V) (hne : S.Nonempty) :
    ∃ v ∈ S, ((buildNeighbors edges v) ∩ S).card ≤ 1 := by
  obtain ⟨v, hvS, hmax⟩ := S.exists_max_image depth hne
  refine ⟨v, hvS, ?_⟩
  have hsub : (buildNeighbors edges v) ∩ S ⊆ {parent v} := by
    intro u hu
    obtain ⟨hadj, huS⟩ := Finset.mem_inter.mp hu
    rcases forest_adj hF hadj with ⟨huV, hur, hpu, _⟩ | ⟨hvV, hvr, hpv, _⟩
    · exfalso
      have hd : depth u = depth (parent u) + 1 := (hF.1 u huV hur).2
      rw [hpu] at hd
      have := hmax u huS
      omega
    · rw [Finset.mem_singleton]
      exact hpv.symm
  calc ((buildNeighbors edges v) ∩ S).card ≤ ({parent v} : Finset ℕ).card :=
        Finset.card_le_card hsub
    _ = 1 := Finset.card_singleton _

lemma strip_perm_of_forest {edges : List (ℕ × ℕ)} {r : ℕ} {parent depth : ℕ → ℕ}
    (hF : IsParentForest (edges.length + 1) edges r parent depth) :
    (stripPops (buildNeighbors edges)
        ((List.range (edges.length + 1)).filter
          (fun v => (buildNeighbors edges v).card ≤ 1))
        (4 * (edges.length + 1) + 4)).Perm (List.range (edges.length + 1)) := by
  have h := stripPops_visits_all (edges.length + 1) (buildNeighbors edges)
    (buildNeighbors_symm edges) (forest_range hF) (forest_leaf hF)
    (4 * (edges.length + 1) + 4) ∅ (buildNeighbors edges)
    ((List.range (edges.length + 1)).filter
      (fun v => (buildNeighbors edges v).card ≤ 1))
    (fun v _ => (Finset.sdiff_empty).symm)
    ((List.nodup_range _).filter _)
    (fun v hv => ⟨Finset.not_mem_empty v,
      List.mem_range.mp (List.mem_filter.mp hv).1⟩)
    (fun v hv _ => by
      rw [Finset.sdiff_empty, List.mem_filter]
      simp [List.mem_range, hv])
    (Finset.empty_subset _)
    (by omega)
  obtain ⟨hnd, _, hun⟩ := h
  rw [Finset.empty_union] at hun
  refine (List.perm_ext_iff_of_nodup hnd (List.nodup_range _)).mpr ?_
  intro a
  rw [← List.mem_toFinset, hun, Finset.mem_range, List.mem_range]

lemma mem_pathEdges {V a b : ℕ} :
    (a, b) ∈ pathEdges V ↔ a < V - 1 ∧ b = a + 1 := by
  simp only [pathEdges, List.mem_map, List.mem_range, Prod.ext_iff]
  constructor
  · rintro ⟨i, hi, h1, h2⟩
    exact ⟨h1 ▸ hi, by omega⟩
  · rintro ⟨ha, rfl⟩
    exact ⟨a, ha, rfl, rfl⟩

lemma bn_path {V v u : ℕ} :
    u ∈ buildNeighbors (pathEdges V) v ↔
      (v < V - 1 ∧ u = v + 1) ∨ (u < V - 1 ∧ v = u + 1) := by
  rw [mem_buildNeighbors, mem_pathEdges, mem_pathEdges]

lemma bn_path_zero {V : ℕ} (hV : 2 ≤ V) :
    buildNeighbors (pathEdges V) 0 = {1} := by
  ext u
  rw [bn_path, Finset.mem_singleton]
  omega

lemma bn_path_last {V : ℕ} (hV : 2 ≤ V) :
    buildNeighbors (pathEdges V) (V - 1) = {V - 2} := by
  ext u
  rw [bn_path, Finset.mem_singleton]
  omega

lemma bn_path_mid {V v : ℕ} (h0 : 0 < v) (hV : v < V - 1) :
    buildNeighbors (pathEdges V) v = {v - 1, v + 1} := by
  ext u
  rw [bn_path, Finset.mem_insert, Finset.mem_singleton]
  omega

lemma getLast?_cons_of_ne_nil {x : ℕ} {L : List ℕ} (h : L ≠ []) :
    (x :: L).getLast? = L.getLast? := by
  cases L with
  | nil => exact absurd rfl h
  | cons y t => exact List.getLast?_cons_cons

lemma strip_path_run (d : ℕ) :
    ∀ (a : ℕ) (nbrs : ℕ → Finset ℕ) (fuel : ℕ),
      nbrs a = {a + 1} →
      nbrs (a + d + 1) = {a + d} →
      (∀ v, a < v → v < a + d + 1 → nbrs v = {v - 1, v + 1}) →
      d + 2 ≤ fuel →
      (stripPops nbrs [a, a + d + 1] fuel).getLast?
        = some (a + d + 1 - (d + 1) / 2) := by
  induction d using Nat.strong_induction_on with
  | _ d ih =>
  intro a nbrs fuel ha hb hmid hfuel
  obtain ⟨f, rfl⟩ : ∃ f, fuel = f + 2 := ⟨fuel - 2, by omega⟩
  rcases Nat.lt_or_ge d 2 with hd | hd
  · interval_cases d
    · -- two-vertex path a - (a+1)
      have hb' : nbrs (a + 1) = {a} := by simpa using hb
      have hv1 := stripVisit_of_singleton [a + 0 + 1] ha
      rw [hb', Finset.erase_singleton] at hv1
      rw [stripPops_cons, hv1]
      simp only [Finset.card_empty, if_neg (by omega : ¬(0 = 1))]
      have hup : Function.update nbrs (a + 1) (∅ : Finset ℕ) (a + 0 + 1) = ∅ := by
        rw [show a + 0 + 1 = a + 1 by omega, Function.update_same]
      rw [stripPops_cons, stripVisit_of_empty hup, stripPops_nil]
      rfl
    · -- three-vertex path a - (a+1) - (a+2)
      have hb' : nbrs (a + 2) = {a + 1} := by
        have := hb
        norm_num at this ⊢
        exact this
      have hm1 : nbrs (a + 1) = {a, a + 2} := by
        have := hmid (a + 1) (by omega) (by omega)
        simpa using this
      have hv1 := stripVisit_of_singleton [a + 1 + 1] ha
      have her1 : (nbrs (a + 1)).erase a = {a + 2} := by
        rw [hm1]
        exact Finset.erase_insert (by simp)
      rw [her1] at hv1
      rw [stripPops_cons, hv1]
      simp only [Finset.card_singleton, eq_self_iff_true, if_true, List.singleton_append]
      set nb1 := Function.update nbrs (a + 1) ({a + 2} : Finset ℕ) with hnb1
      have hnb1at2 : nb1 (a + 1 + 1) = {a + 1} := by
        rw [hnb1, Function.update_noteq (by omega)]
        exact hb
      have hv2 := stripVisit_of_singleton [a + 1] hnb1at2
      have her2 : (nb1 (a + 1)).erase (a + 1 + 1) = ∅ := by
        rw [hnb1, Function.update_same]
        rw [show a + 1 + 1 = a + 2 by omega, Finset.erase_singleton]
      rw [her2] at hv2
      rw [stripPops_cons, hv2]
      simp only [Finset.card_empty, if_neg (by omega : ¬(0 = 1))]
      obtain ⟨f', rfl⟩ : ∃ f', f = f' + 1 := ⟨f - 1, by omega⟩
      set nb2 := Function.update nb1 (a + 1) (∅ : Finset ℕ) with hnb2
      have hnb2at1 : nb2 (a + 1) = ∅ := by
        rw [hnb2, Function.update_same]
      rw [stripPops_cons, stripVisit_of_empty hnb2at1, stripPops_nil]
      norm_num
  · -- path of length at least four: strip both ends and recurse
    have hm1 : nbrs (a + 1) = {a, a + 2} := by
      have := hmid (a + 1) (by omega) (by omega)
      simpa using this
    have hv1 := stripVisit_of_singleton [a + d + 1] ha
    have her1 : (nbrs (a + 1)).erase a = {a + 2} := by
      rw [hm1]
      exact Finset.erase_insert (by simp)
    rw [her1] at hv1
    rw [stripPops_cons, hv1]
    simp only [Finset.card_singleton, eq_self_iff_true, if_true, List.singleton_append]
    set nb1 := Function.update nbrs (a + 1) ({a + 2} : Finset ℕ) with hnb1
    have hnb1top : nb1 (a + d + 1) = {a + d} := by
      rw [hnb1, Function.update_noteq (by omega), hb]
    have hv2 := stripVisit_of_singleton [a + 1] hnb1top
    have hmd : nbrs (a + d) = {a + d - 1, a + d + 1} := by
      have := hmid (a + d) (by omega) (by omega)
      simpa using this
    have her2 : (nb1 (a + d)).erase (a + d + 1) = {a + d - 1} := by
      rw [hnb1, Function.update_noteq (by omega), hmd, Finset.pair_comm]
      refine Finset.erase_insert ?_
      rw [Finset.mem_singleton]
      omega
    rw [her2] at hv2
    rw [stripPops_cons, hv2]
    simp only [Finset.card_singleton, eq_self_iff_true, if_true, List.singleton_append]
    set nb2 := Function.update nb1 (a + d) ({a + d - 1} : Finset ℕ) with hnb2
    -- the remaining state is the path (a+1) .. (a+d), queue [a+1, a+d]
    have hrec := ih (d - 2) (by omega) (a + 1) nb2 f ?_ ?_ ?_ (by omega)
    · have harith : a + 1 + (d - 2) + 1 = a + d := by omega
      rw [harith] at hrec
      have hne : stripPops nb2 [a + 1, a + d] f ≠ [] := by
        intro he
        rw [he] at hrec
        exact Option.noConfusion hrec
      rw [getLast?_cons_of_ne_nil (List.cons_ne_nil _ _),
        getLast?_cons_of_ne_nil hne, hrec]
      congr 1
      omega
    · -- left endpoint of the inner path
      rw [hnb2, Function.update_noteq (by omega), hnb1, Function.update_same]
    · -- right endpoint of the inner path
      have harith : a + 1 + (d - 2) + 1 = a + d := by omega
      have harith2 : a + 1 + (d - 2) = a + d - 1 := by omega
      rw [harith, harith2, hnb2, Function.update_same]
    · -- interior of the inner path
      intro v hv1' hv2'
      have hvd : v < a + d := by omega
      rw [hnb2, Function.update_noteq (by omega), hnb1,
        Function.update_noteq (by omega)]
      exact hmid v (by omega) (by omega)

lemma filter_range_eq_zero_singleton (p : ℕ → Bool) :
    ∀ m, 1 ≤ m → p 0 = true → (∀ v, 0 < v → v < m → p v = false) →
      (List.range m).filter p = [0] := by
  intro m
  induction m with
  | zero => omega
  | succ m ih =>
      intro _ h0 hmid
      rw [List.range_succ, List.filter_append]
      by_cases hm : m = 0
      · subst hm
        simp [h0]
      · rw [ih (by omega) h0 (fun v hv1 hv2 => hmid v hv1 (by omega))]
        simp [hmid m (by omega) (by omega)]

lemma path_initial_queue {V : ℕ} (hV : 2 ≤ V) :
    (List.range V).filter
      (fun v => (buildNeighbors (pathEdges V) v).card ≤ 1) = [0, V - 1] := by
  obtain ⟨W, rfl⟩ : ∃ W, V = W + 2 := ⟨V - 2, by omega⟩
  rw [show W + 2 = (W + 1) + 1 by omega, List.range_succ, List.filter_append]
  have h0 : (decide ((buildNeighbors (pathEdges (W + 2)) 0).card ≤ 1)) = true := by
    rw [bn_path_zero (by omega)]
    simp
  have hlast : (decide ((buildNeighbors (pathEdges (W + 2)) (W + 1)).card ≤ 1)) = true := by
    have : W + 1 = (W + 2) - 1 := by omega
    rw [this, bn_path_last (by omega)]
    simp
  have hmid : ∀ v, 0 < v → v < W + 1 →
      (decide ((buildNeighbors (pathEdges (W + 2)) v).card ≤ 1)) = false := by
    intro v hv1 hv2
    rw [bn_path_mid hv1 (by omega)]
    rw [Finset.card_insert_of_not_mem (by rw [Finset.mem_singleton]; omega),
      Finset.card_singleton]
    simp
  rw [filter_range_eq_zero_singleton _ (W + 1) (by omega) h0 hmid]
  simp only [List.filter_cons, List.filter_nil, hlast]
  rfl

lemma find_center_path {V : ℕ} (hV : 1 ≤ V) :
    findCenterOfTree (pathEdges V) = (V - 1) - (V - 1) / 2 := by
  rcases Nat.lt_or_ge V 2 with h2 | h2
  · have hV1 : V = 1 := by omega
    subst hV1
    decide
  · obtain ⟨W, rfl⟩ : ∃ W, V = W + 2 := ⟨V - 2, by omega⟩
    have hlen : (pathEdges (W + 2)).length = W + 1 := by
      simp [pathEdges]
    simp only [findCenterOfTree, hlen]
    rw [path_initial_queue (by omega)]
    have hrun := strip_path_run W 0 (buildNeighbors (pathEdges (W + 2)))
      (4 * (W + 1 + 1) + 4) ?_ ?_ ?_ (by omega)
    · rw [show (0 : ℕ) + W + 1 = W + 1 by omega] at hrun
      rw [show (W + 2 : ℕ) - 1 = W + 1 by omega, hrun]
      simp only [Option.getD_some]
    · rw [bn_path_zero (by omega)]
    · rw [show (0 : ℕ) + W + 1 = (W + 2) - 1 by omega, bn_path_last (by omega)]
      rw [show (0 : ℕ) + W = (W + 2) - 2 by omega]
    · intro v hv1 hv2
      exact bn_path_mid hv1 (by omega)

/-- C5: on any tree (presented by a rooted-forest certificate) leaf-stripping
pops every one of the `V = len(edges) + 1` vertices exactly once before the
queue empties, and `find_center_of_tree` returns the last pop; on the path
graph `0 - ... - (V-1)` it returns position `floor((V-1)/2)` or
`ceil((V-1)/2)` (the latter); and on edges `[[0,1],[1,2]]` it returns
vertex `1`. -/
theorem find_center_of_tree_spec :
    (∀ (edges : List (ℕ × ℕ)) (r : ℕ) (parent depth : ℕ → ℕ),
        IsParentForest (edges.length + 1) edges r parent depth →
        (stripPops (buildNeighbors edges)
            ((List.range (edges.length + 1)).filter
              (fun v => (buildNeighbors edges v).card ≤ 1))
            (4 * (edges.length + 1) + 4)).Perm (List.range (edges.length + 1)))
    ∧ (∀ V, 1 ≤ V →
        findCenterOfTree (pathEdges V) = (V - 1) / 2 ∨
          findCenterOfTree (pathEdges V) = (V - 1) - (V - 1) / 2)
    ∧ findCenterOfTree [(0, 1), (1, 2)] = 1 := by
  exact ⟨fun edges r parent depth hF => strip_perm_of_forest hF,
    fun V hV => Or.inr (find_center_path hV), by decide⟩

/-- C5 witness: the theorem applied to the concrete tree `[[0,1],[1,2]]` with
an explicit rooted certificate, and to the concrete path graph on four
vertices. -/
theorem find_center_of_tree_spec_witness :
    (IsParentForest ([(0, 1), (1, 2)].length + 1) [(0, 1), (1, 2)] 1
        (fun _ => 1) (fun v => if v = 1 then 0 else 1) ∧
      (stripPops (buildNeighbors [(0, 1), (1, 2)])
          ((List.range ([(0, 1), (1, 2)].length + 1)).filter
            (fun v => (buildNeighbors [(0, 1), (1, 2)] v).card ≤ 1))
          (4 * ([(0, 1), (1, 2)].length + 1) + 4)).Perm
        (List.range ([(0, 1), (1, 2)].length + 1)))
    ∧ (1 ≤ 4 ∧ (findCenterOfTree (pathEdges 4) = (4 - 1) / 2 ∨
        findCenterOfTree (pathEdges 4) = (4 - 1) - (4 - 1) / 2)) := by
  have hF : IsParentForest ([(0, 1), (1, 2)].length + 1) [(0, 1), (1, 2)] 1
      (fun _ => 1) (fun v => if v = 1 then 0 else 1) := by
    unfold IsParentForest
    exact ⟨by decide, by decide⟩
  exact ⟨⟨hF, find_center_of_tree_spec.1 [(0, 1), (1, 2)] 1 _ _ hF⟩,
    by norm_num, find_center_of_tree_spec.2.1 4 (by norm_num)⟩

lemma ptLoop_nil (nbrs : ℕ → Finset ℕ) (fuel : ℕ) (seen : Finset ℕ)
    (lines : List (ℕ × ℕ)) : ptLoop nbrs fuel [] seen lines = lines := by
  cases fuel <;> rfl

lemma ptLoop_cons (nbrs : ℕ → Finset ℕ) (fuel v : ℕ) (rest : List ℕ)
    (seen : Finset ℕ) (lines : List (ℕ × ℕ)) :
    ptLoop nbrs (fuel + 1) (v :: rest) seen lines
      = (ptPick nbrs seen v).elim
          (ptLoop nbrs fuel rest seen (lines ++ [(rest.length, v)]))
          (fun u => ptLoop nbrs fuel (u :: v :: rest) (insert u seen) lines) :=
  rfl

lemma ptPick_of_empty {nbrs : ℕ → Finset ℕ} {seen : Finset ℕ} {v : ℕ}
    (h : (nbrs v) \ seen = ∅) : ptPick nbrs seen v = none := by
  rw [ptPick, dif_neg]
  rw [h]
  exact Finset.not_nonempty_empty

lemma ptPick_of_nonempty {nbrs : ℕ → Finset ℕ} {seen : Finset ℕ} {v : ℕ}
    (h : ((nbrs v) \ seen).Nonempty) :
    ptPick nbrs seen v = some (((nbrs v) \ seen).max' h) := dif_pos h

lemma reverse_flatMap {α β : Type} (l : List α) (f : α → List β) :
    (l.flatMap f).reverse = l.reverse.flatMap (fun x => (f x).reverse) := by
  induction l with
  | nil => simp
  | cons x t ih => simp [ih]

lemma finsetAsc_max_last (C : Finset ℕ) (h : C.Nonempty) :
    finsetAsc C = finsetAsc (C.erase (C.max' h)) ++ [C.max' h] := by
  rw [finsetAsc_eq_sort, finsetAsc_eq_sort]
  have hmem : C.max' h ∈ C := C.max'_mem h
  refine List.eq_of_perm_of_sorted ?_ (Finset.sort_sorted _ _) ?_
  · have hnd : ((C.erase (C.max' h)).sort (· ≤ ·) ++ [C.max' h]).Nodup := by
      rw [List.nodup_append]
      refine ⟨Finset.sort_nodup _ _, List.nodup_singleton _, ?_⟩
      intro a ha hb
      rw [List.mem_singleton] at hb
      subst hb
      rw [Finset.mem_sort] at ha
      exact (Finset.mem_erase.mp ha).1 rfl
    refine (List.perm_ext_iff_of_nodup (Finset.sort_nodup _ _) hnd).mpr ?_
    intro a
    rw [Finset.mem_sort, List.mem_append, Finset.mem_sort, List.mem_singleton,
      Finset.mem_erase]
    constructor
    · intro ha
      by_cases he : a = C.max' h
      · exact Or.inr he
      · exact Or.inl ⟨he, ha⟩
    · rintro (⟨_, ha⟩ | rfl)
      · exact ha
      · exact hmem
  · refine List.pairwise_append.mpr
      ⟨Finset.sort_sorted _ _, List.sorted_singleton _, ?_⟩
    intro a ha b hb
    rw [List.mem_singleton] at hb
    subst hb
    rw [Finset.mem_sort] at ha
    exact C.le_max' a (Finset.mem_erase.mp ha).2

lemma chain_facts {V r : ℕ} {parent depth : ℕ → ℕ}
    (hp : ∀ v, v < V → v ≠ r → parent v < V ∧ depth v = depth (parent v) + 1)
    (hd0 : depth r = 0) :
    ∀ (n u : ℕ), u < V → n ≤ depth u →
      parent^[n] u < V ∧ depth (parent^[n] u) = depth u - n := by
  intro n
  induction n with
  | zero =>
      intro u hu _
      simp only [Function.iterate_zero, id_eq]
      exact ⟨hu, by omega⟩
  | succ n ih =>
      intro u hu hn
      have hur : u ≠ r := by
        intro he
        rw [he, hd0] at hn
        omega
      obtain ⟨h1, h2⟩ := hp u hu hur
      rw [Function.iterate_succ_apply]
      obtain ⟨h3, h4⟩ := ih (parent u) h1 (by omega)
      exact ⟨h3, by omega⟩

lemma depth_lt {V r : ℕ} {parent depth : ℕ → ℕ}
    (hp : ∀ v, v < V → v ≠ r → parent v < V ∧ depth v = depth (parent v) + 1)
    (hd0 : depth r = 0) : ∀ v, v < V → depth v < V := by
  intro v hv
  by_contra hge
  push_neg at hge
  have hinj : Set.InjOn (fun k => parent^[k] v) (Finset.range (depth v + 1)) := by
    intro k1 hk1 k2 hk2 he
    simp only [Finset.coe_range, Set.mem_Iio] at hk1 hk2
    have h1 := chain_facts hp hd0 k1 v hv (by omega)
    have h2 := chain_facts hp hd0 k2 v hv (by omega)
    have hde : depth (parent^[k1] v) = depth (parent^[k2] v) := by
      simp only at he
      rw [he]
    omega
  have hcard := Finset.card_image_of_injOn hinj
  have hsub : (Finset.range (depth v + 1)).image (fun k => parent^[k] v)
      ⊆ Finset.range V := by
    intro x hx
    obtain ⟨k, hk, rfl⟩ := Finset.mem_image.mp hx
    have hk' := Finset.mem_range.mp hk
    exact Finset.mem_range.mpr (chain_facts hp hd0 k v hv (by omega)).1
  have := Finset.card_le_card hsub
  rw [hcard, Finset.card_range, Finset.card_range] at this
  omega

lemma not_self_adj {V : ℕ} {edges : List (ℕ × ℕ)} {r : ℕ} {parent depth : ℕ → ℕ}
    (hF : IsParentForest V edges r parent depth) :
    ∀ v, v ∉ buildNeighbors edges v := by
  intro v hmem
  rcases forest_adj hF hmem with ⟨h1, h2, h3, _⟩ | ⟨h1, h2, h3, _⟩ <;>
  · have := (hF.1 v h1 h2).2
    rw [h3] at this
    omega

lemma tree_adj_iff {V : ℕ} {edges : List (ℕ × ℕ)} {r : ℕ} {parent depth : ℕ → ℕ}
    (hT : IsParentTree V edges r parent depth) {v : ℕ} (hv : v < V) (u : ℕ) :
    u ∈ buildNeighbors edges v ↔
      u ∈ childrenOf V r parent v ∨ (v ≠ r ∧ u = parent v) := by
  obtain ⟨hF, hr, hd0, hco⟩ := hT
  constructor
  · intro h
    rcases forest_adj hF h with ⟨h1, h2, h3, _⟩ | ⟨_, h2, h3, _⟩
    · exact Or.inl (Finset.mem_filter.mpr ⟨Finset.mem_range.mpr h1, h2, h3⟩)
    · exact Or.inr ⟨h2, h3.symm⟩
  · rintro (hc | ⟨hvr, rfl⟩)
    · obtain ⟨hur, hpu⟩ := (Finset.mem_filter.mp hc).2
      have huV : u < V := Finset.mem_range.mp (Finset.mem_filter.mp hc).1
      rcases hco u huV hur with he | he
      · exact mem_buildNeighbors.mpr (Or.inl (hpu ▸ he))
      · exact mem_buildNeighbors.mpr (Or.inr (hpu ▸ he))
    · rcases hco v hv hvr with he | he
      · exact mem_buildNeighbors.mpr (Or.inr he)
      · exact mem_buildNeighbors.mpr (Or.inl he)

lemma mem_subtreeF {V : ℕ} {parent depth : ℕ → ℕ} {v u : ℕ} :
    u ∈ subtreeF V parent depth v ↔
      u < V ∧ depth v ≤ depth u ∧ parent^[depth u - depth v] u = v := by
  simp [subtreeF, Finset.mem_filter, Finset.mem_range, and_assoc]

lemma self_mem_subtreeF {V : ℕ} {parent depth : ℕ → ℕ} {v : ℕ} (hv : v < V) :
    v ∈ subtreeF V parent depth v :=
  mem_subtreeF.mpr ⟨hv, le_rfl, by simp⟩

lemma child_depth {V r : ℕ} {parent depth : ℕ → ℕ}
    (hp : ∀ v, v < V → v ≠ r → parent v < V ∧ depth v = depth (parent v) + 1)
    {v c : ℕ} (hc : c ∈ childrenOf V r parent v) :
    c < V ∧ c ≠ r ∧ parent c = v ∧ depth c = depth v + 1 := by
  obtain ⟨hcr, hcp⟩ := (Finset.mem_filter.mp hc).2
  have hcV := Finset.mem_range.mp (Finset.mem_filter.mp hc).1
  have hd := (hp c hcV hcr).2
  rw [hcp] at hd
  exact ⟨hcV, hcr, hcp, hd⟩

lemma subtree_child_subset {V r : ℕ} {parent depth : ℕ → ℕ}
    (hp : ∀ v, v < V → v ≠ r → parent v < V ∧ depth v = depth (parent v) + 1)
    {v c : ℕ} (hc : c ∈ childrenOf V r parent v) :
    subtreeF V parent depth c ⊆ subtreeF V parent depth v := by
  obtain ⟨hcV, hcr, hcp, hcd⟩ := child_depth hp hc
  intro u hu
  obtain ⟨huV, hud, hui⟩ := mem_subtreeF.mp hu
  refine mem_subtreeF.mpr ⟨huV, by omega, ?_⟩
  have harith : depth u - depth v = (depth u - depth c) + 1 := by omega
  rw [harith, Function.iterate_succ_apply', hui, hcp]

lemma subtree_decomp {V r : ℕ} {parent depth : ℕ → ℕ}
    (hp : ∀ v, v < V → v ≠ r → parent v < V ∧ depth v = depth (parent v) + 1)
    (hd0 : depth r = 0) {v : ℕ} (hv : v < V) :
    subtreeF V parent depth v
      = insert v ((childrenOf V r parent v).biUnion (subtreeF V parent depth)) := by
  apply Finset.Subset.antisymm
  · intro u hu
    obtain ⟨huV, hud, hui⟩ := mem_subtreeF.mp hu
    rcases Nat.eq_or_lt_of_le hud with heq | hlt
    · have h0 : depth u - depth v = 0 := by omega
      rw [h0, Function.iterate_zero_apply] at hui
      subst hui
      exact Finset.mem_insert_self u _
    · have hn1 : 1 ≤ depth u - depth v := by omega
      have hchain := chain_facts hp hd0 (depth u - depth v - 1) u huV (by omega)
      have hcdv : depth (parent^[depth u - depth v - 1] u) = depth v + 1 := by
        omega
      have hcr : parent^[depth u - depth v - 1] u ≠ r := by
        intro he
        rw [he, hd0] at hcdv
        omega
      have hpc : parent (parent^[depth u - depth v - 1] u) = v := by
        have h1 : parent^[depth u - depth v] u = v := hui
        rwa [show depth u - depth v = (depth u - depth v - 1) + 1 by omega,
          Function.iterate_succ_apply'] at h1
      refine Finset.mem_insert.mpr (Or.inr (Finset.mem_biUnion.mpr
        ⟨parent^[depth u - depth v - 1] u,
          Finset.mem_filter.mpr ⟨Finset.mem_range.mpr hchain.1, hcr, hpc⟩, ?_⟩))
      refine mem_subtreeF.mpr ⟨huV, by omega, ?_⟩
      rw [show depth u - depth (parent^[depth u - depth v - 1] u)
        = depth u - depth v - 1 by omega]
  · rw [Finset.insert_subset_iff]
    refine ⟨self_mem_subtreeF hv, ?_⟩
    intro u hu
    obtain ⟨c, hc, huc⟩ := Finset.mem_biUnion.mp hu
    exact subtree_child_subset hp hc huc

lemma subtree_sibling_disjoint {V r : ℕ} {parent depth : ℕ → ℕ}
    (hp : ∀ v, v < V → v ≠ r → parent v < V ∧ depth v = depth (parent v) + 1)
    {v c1 c2 : ℕ} (h1 : c1 ∈ childrenOf V r parent v)
    (h2 : c2 ∈ childrenOf V r parent v) (hne : c1 ≠ c2) :
    Disjoint (subtreeF V parent depth c1) (subtreeF V parent depth c2) := by
  rw [Finset.disjoint_left]
  intro u hu1 hu2
  obtain ⟨_, hd1, hi1⟩ := mem_subtreeF.mp hu1
  obtain ⟨_, hd2, hi2⟩ := mem_subtreeF.mp hu2
  have e1 := (child_depth hp h1).2.2.2
  have e2 := (child_depth hp h2).2.2.2
  have he : depth c1 = depth c2 := by omega
  apply hne
  rw [← hi1, ← hi2, he]

lemma subtree_card {V r : ℕ} {parent depth : ℕ → ℕ}
    (hp : ∀ v, v < V → v ≠ r → parent v < V ∧ depth v = depth (parent v) + 1)
    (hd0 : depth r = 0) {v : ℕ} (hv : v < V) :
    (subtreeF V parent depth v).card
      = 1 + ∑ c ∈ childrenOf V r parent v, (subtreeF V parent depth c).card := by
  have hnot : v ∉ (childrenOf V r parent v).biUnion (subtreeF V parent depth) := by
    intro hmem
    obtain ⟨c, hc, hvc⟩ := Finset.mem_biUnion.mp hmem
    obtain ⟨_, hd, _⟩ := mem_subtreeF.mp hvc
    have := (child_depth hp hc).2.2.2
    omega
  rw [subtree_decomp hp hd0 hv, Finset.card_insert_of_not_mem hnot,
    Finset.card_biUnion (fun c1 h1 c2 h2 hne => subtree_sibling_disjoint hp h1 h2 hne)]
  omega

lemma ptLoop_sim {V : ℕ} {edges : List (ℕ × ℕ)} {r : ℕ} {parent depth : ℕ → ℕ}
    (hT : IsParentTree V edges r parent depth) :
    ∀ (n : ℕ) (seen : Finset ℕ), (Finset.range V \ seen).card = n →
      ∀ (v : ℕ) (rest : List ℕ) (lines : List (ℕ × ℕ)) (fuel : ℕ),
      v < V → v ∈ seen →
      buildNeighbors edges v \ seen ⊆ childrenOf V r parent v →
      (∀ c ∈ buildNeighbors edges v \ seen,
        ∀ u ∈ subtreeF V parent depth c, u ≠ c → u ∉ seen) →
      ptLoop (buildNeighbors edges)
          ((1 + 2 * ∑ c ∈ (buildNeighbors edges v \ seen),
              (subtreeF V parent depth c).card) + fuel)
          (v :: rest) seen lines
        = ptLoop (buildNeighbors edges) fuel rest
            (seen ∪ (buildNeighbors edges v \ seen).biUnion (subtreeF V parent depth))
            (lines ++
              (finsetAsc (buildNeighbors edges v \ seen)).reverse.flatMap
                (fun c =>
                  (preListing V r parent (V - depth v) c (rest.length + 1)).reverse)
              ++ [(rest.length, v)]) := by
  have hp := hT.1.1
  have hd0 := hT.2.2.1
  intro n
  induction n using Nat.strong_induction_on with
  | _ n ih =>
  intro seen hn v rest lines fuel hv hvseen hsub hunseen
  by_cases hC : (buildNeighbors edges v \ seen).Nonempty
  · -- there is an unseen neighbor: push its subtree, then continue at v
    have hmC : (buildNeighbors edges v \ seen).max' hC ∈ buildNeighbors edges v \ seen :=
      Finset.max'_mem _ hC
    set m := (buildNeighbors edges v \ seen).max' hC with hm
    have hmchild : m ∈ childrenOf V r parent v := hsub hmC
    obtain ⟨hmV, hmr, hmp, hmd⟩ := child_depth hp hmchild
    have hmseen : m ∉ seen := (Finset.mem_sdiff.mp hmC).2
    have hdvV : depth v < V := depth_lt hp hd0 v hv
    have hpick : ptPick (buildNeighbors edges) seen v = some m := ptPick_of_nonempty hC
    -- the unseen neighborhood of m consists exactly of its children
    have hCm : buildNeighbors edges m \ insert m seen = childrenOf V r parent m := by
      ext u
      rw [Finset.mem_sdiff, tree_adj_iff hT hmV u, Finset.mem_insert]
      constructor
      · rintro ⟨hu | ⟨_, rfl⟩, hu2⟩
        · exact hu
        · exact absurd (hmp ▸ hvseen) (fun h => hu2 (Or.inr h))
      · intro hu
        obtain ⟨huV, hur, hup, hud⟩ := child_depth hp hu
        have hum : u ≠ m := by
          intro he
          rw [he] at hud
          omega
        have humem : u ∈ subtreeF V parent depth m :=
          mem_subtreeF.mpr ⟨huV, by omega, by
            rw [show depth u - depth m = 1 by omega, Function.iterate_one, hup]⟩
        exact ⟨Or.inl hu, fun h => h.elim hum (hunseen m hmC u humem hum)⟩
    have hsubm : (∀ u ∈ subtreeF V parent depth m, u ≠ m → u ∉ seen) :=
      hunseen m hmC
    -- apply the induction hypothesis to the pushed child m
    have hnpos : 1 ≤ n := by
      have hmmem : m ∈ Finset.range V \ seen :=
        Finset.mem_sdiff.mpr ⟨Finset.mem_range.mpr hmV, hmseen⟩
      have := Finset.card_pos.mpr ⟨m, hmmem⟩
      omega
    have hcard1 : (Finset.range V \ insert m seen).card = n - 1 := by
      rw [Finset.sdiff_insert, Finset.card_erase_of_mem
        (Finset.mem_sdiff.mpr ⟨Finset.mem_range.mpr hmV, hmseen⟩), hn]
    have hIHm := ih (n - 1) (by omega) (insert m seen) hcard1 m (v :: rest) lines
      ((1 + 2 * ∑ c ∈ ((buildNeighbors edges v \ seen).erase m),
          (subtreeF V parent depth c).card) + fuel)
      hmV (Finset.mem_insert_self m seen)
      (by rw [hCm])
      (by
        rw [hCm]
        intro c hc u hu huc
        obtain ⟨hcV, hcr, hcp, hcd⟩ := child_depth hp hc
        obtain ⟨huV, hud, _⟩ := mem_subtreeF.mp hu
        have hum : u ≠ m := by
          intro he
          rw [he] at hud
          omega
        have humem : u ∈ subtreeF V parent depth m :=
          subtree_child_subset hp hc hu
        rw [Finset.mem_insert]
        exact fun h => h.elim hum (hunseen m hmC u humem hum))
    rw [hCm] at hIHm
    simp only [List.length_cons] at hIHm
    -- identify the state after the child subtree is fully explored
    have hseen2 : insert m seen ∪ (childrenOf V r parent m).biUnion (subtreeF V parent depth)
        = seen ∪ subtreeF V parent depth m := by
      rw [subtree_decomp hp hd0 hmV, Finset.union_insert, Finset.insert_union]
    have hfuelm : V - depth v = (V - depth m) + 1 := by omega
    have hlinesm :
        (preListing V r parent (V - depth v) m (rest.length + 1)).reverse
          = (finsetAsc (childrenOf V r parent m)).reverse.flatMap
              (fun c =>
                (preListing V r parent (V - depth m) c (rest.length + 1 + 1)).reverse)
            ++ [(rest.length + 1, m)] := by
      rw [hfuelm, preListing, List.reverse_cons, reverse_flatMap]
    rw [hseen2] at hIHm
    -- step count bookkeeping
    have hsum : (subtreeF V parent depth m).card
        + ∑ c ∈ ((buildNeighbors edges v \ seen).erase m),
            (subtreeF V parent depth c).card
        = ∑ c ∈ (buildNeighbors edges v \ seen), (subtreeF V parent depth c).card := by
      exact Finset.add_sum_erase _ (fun c => (subtreeF V parent depth c).card) hmC
    have hcardm : (subtreeF V parent depth m).card
        = 1 + ∑ c ∈ childrenOf V r parent m, (subtreeF V parent depth c).card :=
      subtree_card hp hd0 hmV
    rw [show (1 + 2 * ∑ c ∈ (buildNeighbors edges v \ seen),
          (subtreeF V parent depth c).card) + fuel
        = ((1 + 2 * ∑ c ∈ childrenOf V r parent m, (subtreeF V parent depth c).card)
            + ((1 + 2 * ∑ c ∈ ((buildNeighbors edges v \ seen).erase m),
                (subtreeF V parent depth c).card) + fuel)) + 1 by omega]
    rw [ptLoop_cons, hpick]
    simp only [Option.elim]
    rw [hIHm]
    -- the unseen neighborhood of v after exploring the subtree of m
    have hC2 : buildNeighbors edges v \ (seen ∪ subtreeF V parent depth m)
        = (buildNeighbors edges v \ seen).erase m := by
      ext u
      rw [Finset.mem_erase, Finset.mem_sdiff, Finset.mem_sdiff, Finset.mem_union,
        not_or]
      constructor
      · rintro ⟨hu1, hu2, hu3⟩
        refine ⟨fun he => hu3 (by rw [he]; exact self_mem_subtreeF hmV), hu1, hu2⟩
      · rintro ⟨hne, hu1, hu2⟩
        refine ⟨hu1, hu2, fun hmem => hne ?_⟩
        have huchild : u ∈ childrenOf V r parent v :=
          hsub (Finset.mem_sdiff.mpr ⟨hu1, hu2⟩)
        obtain ⟨huV, hur, hup, hud⟩ := child_depth hp huchild
        obtain ⟨_, hd2, hi2⟩ := mem_subtreeF.mp hmem
        have h0 : depth u - depth m = 0 := by omega
        rw [h0, Function.iterate_zero_apply] at hi2
        exact hi2
    have hIH2 := ih ((Finset.range V \ (seen ∪ subtreeF V parent depth m)).card)
      (by
        have hsubset : Finset.range V \ (seen ∪ subtreeF V parent depth m)
            ⊆ Finset.range V \ insert m seen := by
          intro x hx
          rw [Finset.mem_sdiff] at hx ⊢
          rw [Finset.mem_union, not_or] at hx
          refine ⟨hx.1, ?_⟩
          rw [Finset.mem_insert, not_or]
          exact ⟨fun he => hx.2.2 (by rw [he]; exact self_mem_subtreeF hmV), hx.2.1⟩
        have := Finset.card_le_card hsubset
        omega)
      (seen ∪ subtreeF V parent depth m) rfl v rest
      (lines ++ (preListing V r parent (V - depth v) m (rest.length + 1)).reverse)
      fuel hv (Finset.mem_union_left _ hvseen)
      (by
        rw [hC2]
        exact fun c hc => hsub (Finset.mem_of_mem_erase hc))
      (by
        rw [hC2]
        intro c hc u hu huc
        have hcC : c ∈ buildNeighbors edges v \ seen := Finset.mem_of_mem_erase hc
        have hcm : c ≠ m := (Finset.mem_erase.mp hc).1
        rw [Finset.mem_union, not_or]
        refine ⟨hunseen c hcC u hu huc, ?_⟩
        have hdisj := subtree_sibling_disjoint hp (hsub hcC) hmchild hcm
        exact fun hmem => (Finset.disjoint_left.mp hdisj) hu hmem)
    rw [hC2] at hIH2
    rw [hlinesm] at hIH2
    rw [List.append_assoc]
    rw [hIH2]
    -- reassemble the seen set and the emitted lines
    have hfinseen : seen ∪ subtreeF V parent depth m
        ∪ ((buildNeighbors edges v \ seen).erase m).biUnion (subtreeF V parent depth)
        = seen ∪ (buildNeighbors edges v \ seen).biUnion (subtreeF V parent depth) := by
      conv_rhs => rw [← Finset.insert_erase hmC]
      rw [Finset.biUnion_insert, Finset.union_assoc]
    have hfinasc : finsetAsc (buildNeighbors edges v \ seen)
        = finsetAsc ((buildNeighbors edges v \ seen).erase m) ++ [m] :=
      finsetAsc_max_last _ hC
    rw [hfinseen]
    congr 1
    rw [hfinasc, List.reverse_append, List.reverse_singleton, List.singleton_append,
      List.flatMap_cons, hlinesm]
    simp only [List.append_assoc]
  · -- no unseen neighbor: pop v and emit its line
    have hCe : buildNeighbors edges v \ seen = ∅ :=
      Finset.not_nonempty_iff_eq_empty.mp hC
    rw [hCe]
    simp only [Finset.sum_empty, Nat.mul_zero, Nat.add_zero, Finset.biUnion_empty,
      Finset.union_empty, finsetAsc_empty, List.reverse_nil, List.flatMap_nil,
      List.append_nil]
    rw [show 1 + fuel = fuel + 1 by omega]
    rw [ptLoop_cons, ptPick_of_empty hCe]
    simp only [Option.elim]

lemma print_tree_root_case {edges : List (ℕ × ℕ)} {names : List String}
    {rootName : String} {r : ℕ} {parent depth : ℕ → ℕ}
    (hlen : names.length = edges.length + 1)
    (hidx : names.indexOf rootName = r)
    (hT : IsParentTree (edges.length + 1) edges r parent depth) :
    printTree edges names (some rootName)
      = renderLines names
          (preListing (edges.length + 1) r parent (edges.length + 2) r 0) := by
  have hp := hT.1.1
  have hd0 := hT.2.2.1
  have hrV := hT.2.1
  have hCr : buildNeighbors edges r \ {r}
      = childrenOf (edges.length + 1) r parent r := by
    ext u
    rw [Finset.mem_sdiff, Finset.mem_singleton, tree_adj_iff hT hrV u]
    constructor
    · rintro ⟨hu | ⟨hrr, _⟩, hur⟩
      · exact hu
      · exact absurd rfl hrr
    · intro hu
      exact ⟨Or.inl hu, (Finset.mem_filter.mp hu).2.1⟩
  have hyp4 : ∀ c ∈ buildNeighbors edges r \ {r},
      ∀ u ∈ subtreeF (edges.length + 1) parent depth c, u ≠ c →
        u ∉ ({r} : Finset ℕ) := by
    intro c hc u hu _
    rw [Finset.mem_singleton]
    intro he
    obtain ⟨_, hud, _⟩ := mem_subtreeF.mp hu
    have hcd := (child_depth hp (hCr ▸ hc)).2.2.2
    rw [he, hd0] at hud
    omega
  have hsubcard : (subtreeF (edges.length + 1) parent depth r).card
      ≤ edges.length + 1 := by
    calc (subtreeF (edges.length + 1) parent depth r).card
        ≤ (Finset.range (edges.length + 1)).card :=
          Finset.card_le_card (Finset.filter_subset _ _)
      _ = edges.length + 1 := Finset.card_range _
  have hsteps : (1 + 2 * ∑ c ∈ (buildNeighbors edges r \ {r}),
      (subtreeF (edges.length + 1) parent depth c).card) ≤ 2 * (edges.length + 1) := by
    rw [hCr]
    have := subtree_card hp hd0 hrV
    omega
  have hsim := ptLoop_sim hT ((Finset.range (edges.length + 1) \ {r}).card) {r} rfl
    r [] []
    (2 * names.length + 2 - (1 + 2 * ∑ c ∈ (buildNeighbors edges r \ {r}),
      (subtreeF (edges.length + 1) parent depth c).card))
    hrV (Finset.mem_singleton_self r) (by rw [hCr]) hyp4
  rw [show (1 + 2 * ∑ c ∈ (buildNeighbors edges r \ {r}),
        (subtreeF (edges.length + 1) parent depth c).card)
      + (2 * names.length + 2 - (1 + 2 * ∑ c ∈ (buildNeighbors edges r \ {r}),
          (subtreeF (edges.length + 1) parent depth c).card))
      = 2 * names.length + 2 by rw [hlen]; omega] at hsim
  rw [ptLoop_nil] at hsim
  rw [hCr, hd0, Nat.sub_zero] at hsim
  simp only [List.nil_append, List.length_nil, Nat.zero_add] at hsim
  show renderLines names (ptLoop (buildNeighbors edges) (2 * names.length + 2)
      [names.indexOf rootName] {names.indexOf rootName} []).reverse = _
  rw [hidx, hsim]
  congr 1
  rw [List.reverse_append, List.reverse_singleton, List.singleton_append]
  rw [show edges.length + 2 = (edges.length + 1) + 1 by omega, preListing]
  congr 1
  have hrev := reverse_flatMap (finsetAsc (childrenOf (edges.length + 1) r parent r))
    (fun c => preListing (edges.length + 1) r parent (edges.length + 1) c 1)
  simp only [Nat.zero_add]
  rw [← hrev, List.reverse_reverse]

/-- C10 counterexample: on the tree `0 - 1 - 2` with feature names
`["a", "c", "b"]` and the default root (the center, vertex 1, named `"c"`),
the two children of the root are listed as `"a"` (vertex 0) before `"b"`
(vertex 2): ascending vertex-id order, not the reverse-lexicographic
feature-name order, which would list `"b"` before `"a"`. -/
theorem print_tree_not_reverse_lex :
    printTree [(0, 1), (1, 2)] ["a", "c", "b"] none = "c\n  a\n  b" ∧
    printTree [(0, 1), (1, 2)] ["a", "c", "b"] none ≠ "c\n  b\n  a" := by
  constructor
  · decide
  · decide

/-- C10 (amended): `print_tree` produces a depth-indented DFS listing of the
tree rooted at the given root, defaulting to the name of the computed center,
in which ties among the children of any vertex are broken by ascending vertex
id (the loop explores children in descending id order, records lines in
postorder, and reverses them, which yields the ascending-id preorder
listing). -/
theorem print_tree_spec_amended :
    (∀ (edges : List (ℕ × ℕ)) (names : List String),
        printTree edges names none
          = printTree edges names (some (names.getD (findCenterOfTree edges) "")))
    ∧ (∀ (edges : List (ℕ × ℕ)) (names : List String) (rootName : String)
        (r : ℕ) (parent depth : ℕ → ℕ),
        names.length = edges.length + 1 →
        names.indexOf rootName = r →
        IsParentTree (edges.length + 1) edges r parent depth →
        printTree edges names (some rootName)
          = renderLines names
              (preListing (edges.length + 1) r parent (edges.length + 2) r 0)) :=
  ⟨fun _ _ => rfl,
    fun _ _ _ _ _ _ hlen hidx hT => print_tree_root_case hlen hidx hT⟩

/-- C10 witness: the amended theorem applied to the concrete tree
`0 - 1 - 2` rooted at its center, with an explicit certificate. -/
theorem print_tree_spec_amended_witness :
    ((["a", "c", "b"] : List String).length = ([(0, 1), (1, 2)] : List (ℕ × ℕ)).length + 1 ∧
      (["a", "c", "b"] : List String).indexOf "c" = 1 ∧
      IsParentTree (([(0, 1), (1, 2)] : List (ℕ × ℕ)).length + 1) [(0, 1), (1, 2)] 1
        (fun _ => 1) (fun v => if v = 1 then 0 else 1)) ∧
    printTree [(0, 1), (1, 2)] ["a", "c", "b"] (some "c")
      = renderLines ["a", "c", "b"]
          (preListing (([(0, 1), (1, 2)] : List (ℕ × ℕ)).length + 1) 1 (fun _ => 1)
            (([(0, 1), (1, 2)] : List (ℕ × ℕ)).length + 2) 1 0) := by
  have hT : IsParentTree (([(0, 1), (1, 2)] : List (ℕ × ℕ)).length + 1) [(0, 1), (1, 2)] 1
      (fun _ => 1) (fun v => if v = 1 then 0 else 1) := by
    refine ⟨?_, by norm_num, by norm_num, by decide⟩
    unfold IsParentForest
    exact ⟨by decide, by decide⟩
  exact ⟨⟨by decide, by decide, hT⟩,
    print_tree_spec_amended.2 [(0, 1), (1, 2)] ["a", "c", "b"] "c" 1 (fun _ => 1)
      (fun v => if v = 1 then 0 else 1) (by decide) (by decide) hT⟩
